import Mathlib

/-! ExtendedClox: heap objects, string interning and textual projection

A shallow embedding of `src/object.c` and `src/libc/baseobject.c`.

* Pointers are natural-number addresses; a nullable pointer is an `Option`.
* Objects live in `VM.heap` (address = index); raw storage obtained with
  `ALLOCATE` lives in `VM.mem` (address = index, `none` once released).
* Functions that read through a pointer return `Option`: `none` stands for a
  read the C program leaves undefined (dangling pointer, read past a buffer,
  control falling off the end of a non-void function).
* `uint32_t` arithmetic is arithmetic on `Nat` modulo `2 ^ 32`; lengths and
  counts are non-negative C `int`s, taken as naturals.
* No collection pass runs inside the allocation primitive.
-/

namespace Clox

/-! ## Data model -/

/-- One `char` of storage, seen as its unsigned 8-bit value. -/
abbrev Byte := Fin 256

/-- The bytes of a piece of text, without a terminator. -/
def bytesOf (t : String) : List Byte :=
  t.toList.map fun c => Fin.ofNat c.toNat

/-- The type tag stored in every object header (`ObjType`). -/
inductive ObjType where
  | OBJ_BOUND_METHOD
  | OBJ_BUILTIN_CLASS
  | OBJ_CLASS
  | OBJ_CLOSURE
  | OBJ_FUNCTION
  | OBJ_INSTANCE
  | OBJ_NATIVE
  | OBJ_NATIVE_METHOD
  | OBJ_STRING
  | OBJ_UPVALUE
  deriving DecidableEq, Repr

/-- A `char*`: either a pointer into constant or caller memory holding the
given bytes (a string literal, source text), or a pointer to storage obtained
from the allocation primitive. -/
inductive CharPtr where
  | lit (bytes : List Byte)
  | heap (b : Nat)
  deriving DecidableEq, Repr

/-- A runtime value (`Value`); `obj r` is `OBJ_VAL` of the object at address `r`. -/
inductive Value where
  | nil
  | bool (b : Bool)
  | number (n : Int)
  | obj (r : Nat)
  deriving DecidableEq, Repr

/-- Modelled from the spec: the hash table primitive of `table.h`, which is not
part of the sources. A mapping from keys (addresses of String objects) to
values, kept as an association list. -/
abbrev Table := List (Nat × Value)

/-- The fields that follow the header, one constructor per object struct.
`ObjBuiltinClass` wraps an `ObjClass` and so shares `klass`. -/
inductive ObjData where
  | boundMethod (receiver : Value) (method : Nat)
  | klass (name : Nat) (methods : Table)
  | closure (function : Nat) (upvalues : Nat) (upvalueCount : Nat)
  | function (arity : Nat) (upvalueCount : Nat) (name : Option Nat) (chunk : List Nat)
  | inst (klass : Nat) (fields : Table)
  | native (function : Nat)
  | nativeMethod (function : Nat)
  | string (length : Nat) (chars : CharPtr) (hash : Nat)
  | upvalue (location : Nat) (closed : Value) (next : Option Nat)
  deriving DecidableEq, Repr

/-- A heap object: the header (`type`, registry link `next`) and its fields. -/
structure Obj where
  type : ObjType
  next : Option Nat
  data : ObjData
  deriving DecidableEq, Repr

/-- Raw storage handed out by `ALLOCATE`: a `char` array or an array of
upvalue pointers. -/
inductive Block where
  | chars (bytes : List Byte)
  | upvalues (slots : List (Option Nat))
  deriving DecidableEq, Repr

/-- The runtime state the object layer reads and writes: object memory, raw
storage, the registry head `vm.objects`, the intern table `vm.strings`, the
value stack (top first), the log of released storage and standard output. -/
structure VM where
  heap : List Obj
  mem : List (Option Block)
  objects : Option Nat
  strings : Table
  stack : List Value
  frees : List Nat
  out : List Byte
  deriving DecidableEq, Repr

/-- The state of a freshly started runtime: nothing allocated, empty tables. -/
def initVM : VM :=
  { heap := [], mem := [], objects := none, strings := [], stack := [],
    frees := [], out := [] }

/-! ## Hashing -/

/-- The loop of `hashString`: `n` iterations remain, `i` is the loop index. -/
def hashStringLoop (key : List Byte) : Nat → Nat → Nat → Nat
  | 0, _, hash => hash
  | n + 1, i, hash =>
    let hash1 := hash ^^^ (key.getD i 0).val
    let hash2 := (hash1 * 16777619) % 4294967296
    hashStringLoop key n (i + 1) hash2

/-- `hashString(key, length)`. -/
def hashString (key : List Byte) (length : Nat) : Nat :=
  hashStringLoop key length 0 2166136261

/-- The reference recurrence of seedless 32-bit FNV-1a, as the specification
words it: `h 0 = 2166136261`, `h (i+1) = ((h i XOR b_i) * 16777619) mod 2^32`. -/
def fnv1aRef (b : List Byte) : Nat → Nat
  | 0 => 2166136261
  | i + 1 => ((Nat.xor (fnv1aRef b i) (b.getD i 0).val) * 16777619) % 2 ^ 32

/-! ## Memory, stack and table primitives -/

/-- Modelled from the spec: the allocation primitive `reallocate(NULL, 0, size)`
of `memory.h` (not part of the sources), as used by `ALLOCATE`: it hands out
fresh storage, here the next unused address, holding `blk`. -/
def allocate (s : VM) (blk : Block) : Nat × VM :=
  (s.mem.length, { s with mem := s.mem ++ [some blk] })

/-- Modelled from the spec: `reallocate(ptr, size, 0)` of `memory.h`, as used by
`FREE_ARRAY`: releases storage obtained from `allocate` and logs the release.
Releasing anything else is undefined. -/
def freeArray (s : VM) : CharPtr → Option VM
  | .lit _ => none
  | .heap b =>
    match s.mem[b]? with
    | some (some _) => some { s with mem := s.mem.set b none, frees := s.frees ++ [b] }
    | _ => none

/-- Reading the bytes a `char*` points at. -/
def load (s : VM) : CharPtr → Option (List Byte)
  | .lit bytes => some bytes
  | .heap b =>
    match s.mem[b]? with
    | some (some (.chars bytes)) => some bytes
    | _ => none

/-- Modelled from the spec: `push` of `vm.h` (not part of the sources). -/
def push (s : VM) (value : Value) : VM :=
  { s with stack := value :: s.stack }

/-- Modelled from the spec: `pop` of `vm.h` (not part of the sources). -/
def pop (s : VM) : VM :=
  { s with stack := s.stack.tail }

/-- Modelled from the spec: `peek(distance)` of `vm.h` (not part of the sources). -/
def peek (s : VM) (distance : Nat) : Option Value :=
  s.stack[distance]?

/-- `AS_STRING` and the other `AS_*` pointer casts: the address inside an object value. -/
def asObj : Value → Option Nat
  | .obj r => some r
  | _ => none

/-- Modelled from the spec: `initTable` of `table.h`: the empty mapping. -/
def initTable : Table := []

/-- Modelled from the spec: `set(table, key, value) -> bool-inserted` of
`table.h`: overwrites the value of a present key, adds an absent one. -/
def tableSet (t : Table) (key : Nat) (value : Value) : Bool × Table :=
  if t.any (fun e => e.1 == key) then
    (false, t.map fun e => if e.1 == key then (key, value) else e)
  else
    (true, (key, value) :: t)

/-- Modelled from the spec: `get(table, key) -> value-or-absent` of `table.h`. -/
def tableGet (t : Table) (key : Nat) : Option Value :=
  (t.find? fun e => e.1 == key).map Prod.snd

/-- The comparison `find_by_content` makes on one key: same length, same
cached hash, same first `length` bytes. -/
def keyMatches (s : VM) (chars : List Byte) (length hash : Nat) (key : Nat) : Bool :=
  match s.heap[key]? with
  | some ⟨_, _, .string klength kchars khash⟩ =>
    match load s kchars with
    | some kbytes =>
      klength == length && khash == hash && decide (length ≤ kbytes.length)
        && kbytes.take length == chars.take length
    | none => false
  | _ => false

/-- Modelled from the spec: `find_by_content(table, bytes, length, hash) ->
key-or-absent` of `table.h` (`tableFindString`). -/
def tableFindString (s : VM) (t : Table) (chars : List Byte) (length hash : Nat) :
    Option Nat :=
  (t.find? fun e => keyMatches s chars length hash e.1).map Prod.fst

/-- Modelled from the spec: walking the registry from its head `vm.objects`
along the `next` links, as the collector of `memory.h` does. -/
def registryWalk (heap : List Obj) : Nat → Option Nat → List Nat
  | 0, _ => []
  | _ + 1, none => []
  | fuel + 1, some r =>
    match heap[r]? with
    | some o => r :: registryWalk heap fuel o.next
    | none => []

/-- The objects on the registry; a list without repetition is never longer
than the heap, which bounds the walk. -/
def registry (s : VM) : List Nat :=
  registryWalk s.heap s.heap.length s.objects

/-! ## C library -/

/-- `strlen`: the index of the first zero byte; undefined without one. -/
def strlen : List Byte → Option Nat
  | [] => none
  | c :: rest => if c = 0 then some 0 else (strlen rest).map (· + 1)

/-- The text a `%s` conversion reads: the bytes before the first zero byte. -/
def cstring : List Byte → Option (List Byte)
  | [] => none
  | c :: rest => if c = 0 then some [] else (cstring rest).map (c :: ·)

/-- `snprintf(buf, size, ...)` on a fresh `size`-byte buffer, `text` being the
expanded format: at most `size - 1` bytes of it, then the terminator. -/
def snprintf (size : Nat) (text : List Byte) : List Byte :=
  if size = 0 then []
  else
    let written := text.take (size - 1)
    written ++ 0 :: List.replicate (size - 1 - written.length) 0

/-- `memcpy(dst, src, n)`. -/
def memcpy (dst src : List Byte) (n : Nat) : List Byte :=
  src.take n ++ dst.drop n

/-! ## object.c: construction -/

/-- `allocateObject(size, type)`, together with the field stores that follow it
in every caller (`data`): the new object gets the next unused address, the
tag, and the old registry head as `next`; it becomes the registry head. -/
def allocateObject (s : VM) (type : ObjType) (data : ObjData) : Nat × VM :=
  let object := s.heap.length
  (object,
    { s with heap := s.heap ++ [{ type := type, next := s.objects, data := data }],
             objects := some object })

/-- `newBoundMethod(receiver, method)`. -/
def newBoundMethod (s : VM) (receiver : Value) (method : Nat) : Nat × VM :=
  allocateObject s .OBJ_BOUND_METHOD (.boundMethod receiver method)

/-- `newClass(name)`. -/
def newClass (s : VM) (name : Nat) : Nat × VM :=
  allocateObject s .OBJ_CLASS (.klass name initTable)

/-- `newNativeMethod(function)`. -/
def newNativeMethod (s : VM) (function : Nat) : Nat × VM :=
  allocateObject s .OBJ_NATIVE_METHOD (.nativeMethod function)

/-- `newFunction()`. -/
def newFunction (s : VM) : Nat × VM :=
  allocateObject s .OBJ_FUNCTION (.function 0 0 none [])

/-- `newInstance(klass)`. -/
def newInstance (s : VM) (klass : Nat) : Nat × VM :=
  allocateObject s .OBJ_INSTANCE (.inst klass initTable)

/-- `newNative(function)`. -/
def newNative (s : VM) (function : Nat) : Nat × VM :=
  allocateObject s .OBJ_NATIVE (.native function)

/-- `newUpvalue(slot)`. -/
def newUpvalue (s : VM) (slot : Nat) : Nat × VM :=
  allocateObject s .OBJ_UPVALUE (.upvalue slot .nil none)

/-- The loop of `newClosure`: `upvalues[i] = NULL` for `n` more indices from `i`. -/
def clearUpvalues (upvalues : List (Option Nat)) : Nat → Nat → List (Option Nat)
  | 0, _ => upvalues
  | n + 1, i => clearUpvalues (upvalues.set i none) n (i + 1)

/-- `newClosure(function)`. The array from `ALLOCATE` starts with unspecified
slots (here `some 0`) that the loop then clears. -/
def newClosure (s : VM) (function : Nat) : Option (Nat × VM) :=
  match s.heap[function]? with
  | some ⟨_, _, .function _ upvalueCount _ _⟩ =>
    let fresh : List (Option Nat) := List.replicate upvalueCount (some 0)
    let (upvalues, s1) := allocate s (.upvalues (clearUpvalues fresh upvalueCount 0))
    some (allocateObject s1 .OBJ_CLOSURE (.closure function upvalues upvalueCount))
  | _ => none

/-- `allocateString(chars, length, hash)`. -/
def allocateString (s : VM) (chars : CharPtr) (length hash : Nat) : Nat × VM :=
  let (string, s1) := allocateObject s .OBJ_STRING (.string length chars hash)
  let s2 := push s1 (.obj string)
  let s3 := { s2 with strings := (tableSet s2.strings string .nil).2 }
  (string, pop s3)

/-- `takeString(chars, length)`. -/
def takeString (s : VM) (chars : CharPtr) (length : Nat) : Option (Nat × VM) :=
  match load s chars with
  | none => none
  | some bytes =>
    if length ≤ bytes.length then
      let hash := hashString bytes length
      match tableFindString s s.strings bytes length hash with
      | some interned =>
        match freeArray s chars with
        | some s1 => some (interned, s1)
        | none => none
      | none => some (allocateString s chars length hash)
    else none

/-- `copyString(chars, length)`. -/
def copyString (s : VM) (chars : CharPtr) (length : Nat) : Option (Nat × VM) :=
  match load s chars with
  | none => none
  | some bytes =>
    if length ≤ bytes.length then
      let hash := hashString bytes length
      match tableFindString s s.strings bytes length hash with
      | some interned => some (interned, s)
      | none =>
        let fresh : List Byte := List.replicate (length + 1) 0
        let copied := (memcpy fresh bytes length).set length 0
        let (heapChars, s1) := allocate s (.chars copied)
        some (allocateString s1 (.heap heapChars) length hash)
    else none

/-- The store `tableSet(&klass->obj.methods, key, value)` on the class at `klass`. -/
def setMethod (s : VM) (klass key : Nat) (value : Value) : Option VM :=
  match s.heap[klass]? with
  | some ⟨type, next, .klass name methods⟩ =>
    let updated : Obj := ⟨type, next, .klass name (tableSet methods key value).2⟩
    some { s with heap := s.heap.set klass updated }
  | _ => none

/-- `defineBuiltinMethod(klass, name, function)`; also hands back the native
method object it created. -/
def defineBuiltinMethod (s : VM) (klass : Nat) (name : CharPtr) (function : Nat) :
    Option (Nat × VM) :=
  match load s name with
  | none => none
  | some nameBytes =>
    match strlen nameBytes with
    | none => none
    | some n =>
      match copyString s name n with
      | none => none
      | some (string, s1) =>
        let s2 := push s1 (.obj string)
        let (nativeMethod, s3) := newNativeMethod s2 function
        let s4 := push s3 (.obj nativeMethod)
        match (peek s4 1).bind asObj, peek s4 0 with
        | some key, some value =>
          match setMethod s4 klass key value with
          | some s5 => some (nativeMethod, pop (pop s5))
          | none => none
        | _, _ => none

/-- `newBuiltinClass(name)`. -/
def newBuiltinClass (s : VM) (name : CharPtr) : Option (Nat × VM) :=
  match load s name with
  | none => none
  | some nameBytes =>
    match strlen nameBytes with
    | none => none
    | some n =>
      match copyString s name n with
      | none => none
      | some (string, s1) =>
        let s2 := push s1 (.obj string)
        match (peek s2 0).bind asObj with
        | some nameRef =>
          let (klass, s3) := allocateObject s2 .OBJ_BUILTIN_CLASS (.klass nameRef initTable)
          let s4 := push s3 (.obj klass)
          some (klass, pop (pop s4))
        | none => none

/-! ## object.c: textual projection -/

/-- The pointer `string->chars` of the String object at `string`. -/
def stringChars (s : VM) (string : Nat) : Option CharPtr :=
  match s.heap[string]? with
  | some ⟨_, _, .string _ chars _⟩ => some chars
  | _ => none

/-- The pointer `klass->name` of the class object at `klass`. -/
def className (s : VM) (klass : Nat) : Option Nat :=
  match s.heap[klass]? with
  | some ⟨_, _, .klass name _⟩ => some name
  | _ => none

/-- The pointer `closure->function`. -/
def closureFunction (s : VM) (closure : Nat) : Option Nat :=
  match s.heap[closure]? with
  | some ⟨_, _, .closure function _ _⟩ => some function
  | _ => none

/-- The pointer `instance->klass`. -/
def instanceClass (s : VM) (inst : Nat) : Option Nat :=
  match s.heap[inst]? with
  | some ⟨_, _, .inst klass _⟩ => some klass
  | _ => none

/-- `functionToString(function)`. -/
def functionToString (s : VM) (function : Nat) : Option (CharPtr × VM) :=
  match s.heap[function]? with
  | some ⟨_, _, .function _ _ fname _⟩ =>
    match fname with
    | none => some (.lit (bytesOf "<script>" ++ [0]), s)
    | some nameRef =>
      match (stringChars s nameRef).bind (load s) with
      | none => none
      | some name =>
        match strlen name, cstring name with
        | some len, some text =>
          let size := len + 6
          let (chars, s1) :=
            allocate s (.chars (snprintf size (bytesOf "<fn " ++ text ++ bytesOf ">")))
          some (.heap chars, s1)
        | _, _ => none
  | _ => none

/-- `objectToString(value)`. The switch has no case for `OBJ_BUILTIN_CLASS` and
`OBJ_NATIVE_METHOD`: for them control reaches the end of the function and no
value is returned. -/
def objectToString (s : VM) (value : Value) : Option (CharPtr × VM) :=
  match value with
  | .obj r =>
    match s.heap[r]? with
    | none => none
    | some o =>
      match o.type with
      | .OBJ_BOUND_METHOD =>
        match o.data with
        | .boundMethod _ method => (closureFunction s method).bind (functionToString s)
        | _ => none
      | .OBJ_CLASS =>
        match (className s r).bind (stringChars s) with
        | some chars => some (chars, s)
        | none => none
      | .OBJ_CLOSURE => (closureFunction s r).bind (functionToString s)
      | .OBJ_FUNCTION => functionToString s r
      | .OBJ_INSTANCE =>
        match (((instanceClass s r).bind (className s)).bind (stringChars s)).bind (load s) with
        | none => none
        | some name =>
          match strlen name, cstring name with
          | some len, some text =>
            let size := len + 12
            let (chars, s1) :=
              allocate s (.chars (snprintf size (bytesOf "<" ++ text ++ bytesOf " instance>")))
            some (.heap chars, s1)
          | _, _ => none
      | .OBJ_NATIVE => some (.lit (bytesOf "<native fn>" ++ [0]), s)
      | .OBJ_STRING =>
        match stringChars s r with
        | some chars => some (chars, s)
        | none => none
      | .OBJ_UPVALUE => some (.lit (bytesOf "upvalue" ++ [0]), s)
      | .OBJ_BUILTIN_CLASS => none
      | .OBJ_NATIVE_METHOD => none
  | _ => none

/-- `printf` of already expanded text: appends it to standard output. -/
def printf (s : VM) (text : List Byte) : VM :=
  { s with out := s.out ++ text }

/-- `printFunction(function)`. -/
def printFunction (s : VM) (function : Nat) : Option VM :=
  match s.heap[function]? with
  | some ⟨_, _, .function _ _ fname _⟩ =>
    match fname with
    | none => some (printf s (bytesOf "<script>"))
    | some nameRef =>
      match ((stringChars s nameRef).bind (load s)).bind cstring with
      | some text => some (printf s (bytesOf "<fn " ++ text ++ bytesOf ">"))
      | none => none
  | _ => none

/-- `printObject(value)`. The switch has no case for `OBJ_BUILTIN_CLASS` and
`OBJ_NATIVE_METHOD`: for them nothing is written. -/
def printObject (s : VM) (value : Value) : Option VM :=
  match value with
  | .obj r =>
    match s.heap[r]? with
    | none => none
    | some o =>
      match o.type with
      | .OBJ_BOUND_METHOD =>
        match o.data with
        | .boundMethod _ method => (closureFunction s method).bind (printFunction s)
        | _ => none
      | .OBJ_CLASS =>
        match (((className s r).bind (stringChars s)).bind (load s)).bind cstring with
        | some text => some (printf s text)
        | none => none
      | .OBJ_CLOSURE => (closureFunction s r).bind (printFunction s)
      | .OBJ_FUNCTION => printFunction s r
      | .OBJ_INSTANCE =>
        match ((((instanceClass s r).bind (className s)).bind (stringChars s)).bind
            (load s)).bind cstring with
        | some text => some (printf s (text ++ bytesOf " instance"))
        | none => none
      | .OBJ_NATIVE => some (printf s (bytesOf "<native fn>"))
      | .OBJ_STRING =>
        match ((stringChars s r).bind (load s)).bind cstring with
        | some text => some (printf s text)
        | none => none
      | .OBJ_UPVALUE => some (printf s (bytesOf "upvalue"))
      | .OBJ_BUILTIN_CLASS => some s
      | .OBJ_NATIVE_METHOD => some s
  | _ => none

/-- The text behind a returned `char*`: the C string it points at. -/
def textAt (s : VM) (p : CharPtr) : Option (List Byte) :=
  (load s p).bind cstring

/-! ## libc/baseobject.c -/

/-- `builtinObjectToString(object, argCount)`. -/
def builtinObjectToString (s : VM) (object : Nat) (argCount : Int) : Option (Value × VM) :=
  if argCount > 0 then some (.nil, s)
  else
    match ((instanceClass s object).bind (className s)).bind (stringChars s) with
    | none => none
    | some name =>
      match (load s name).bind strlen with
      | none => none
      | some n =>
        match copyString s name n with
        | some (string, s1) => some (.obj string, s1)
        | none => none

/-- The host function pointer of `builtinObjectToString`. -/
def builtinObjectToStringFn : Nat := 0

/-- `createObjectType()`. -/
def createObjectType (s : VM) : Option (Nat × VM) :=
  match newBuiltinClass s (.lit (bytesOf "Object" ++ [0])) with
  | none => none
  | some (object, s1) =>
    match defineBuiltinMethod s1 object (.lit (bytesOf "toString" ++ [0]))
        builtinObjectToStringFn with
    | some (_, s2) => some (object, s2)
    | none => none

/-! ## Contracts on states -/

/-- The keys of a table. -/
def tableKeys (t : Table) : List Nat :=
  t.map Prod.fst

/-- The table contract on the intern table: every key is the address of a
String object whose characters are readable and at least `length` long. -/
def InternWF (s : VM) : Prop :=
  ∀ k ∈ tableKeys s.strings, ∃ next length chars hash bytes,
    s.heap[k]? = some ⟨.OBJ_STRING, next, .string length chars hash⟩ ∧
    load s chars = some bytes ∧ length ≤ bytes.length

/-- The byte content of the String object at `r`: the first `length` bytes
of its storage. -/
def stringContent (s : VM) (r : Nat) : Option (List Byte) :=
  match s.heap[r]? with
  | some ⟨.OBJ_STRING, _, .string length chars _⟩ =>
    match load s chars with
    | some bytes => if length ≤ bytes.length then some (bytes.take length) else none
    | none => none
  | _ => none

/-- State `s2` keeps every object and every readable byte of `s1`. -/
def Grows (s1 s2 : VM) : Prop :=
  (∀ (r : Nat) (o : Obj), s1.heap[r]? = some o → s2.heap[r]? = some o) ∧
  (∀ (p : CharPtr) (bytes : List Byte), load s1 p = some bytes → load s2 p = some bytes)

/-- A key in good standing: a String object whose storage is readable, at
least `length` long, and whose cached hash is the hash of that storage. -/
def KeyOk (s : VM) (k : Nat) : Prop :=
  ∃ next length chars bytes,
    s.heap[k]? = some ⟨.OBJ_STRING, next, .string length chars (hashString bytes length)⟩ ∧
    load s chars = some bytes ∧ length ≤ bytes.length

/-- The invariant the interner maintains from the initial state on. -/
structure InternInv (s : VM) : Prop where
  keysOk : ∀ k ∈ tableKeys s.strings, KeyOk s k
  allInterned : ∀ (r : Nat) (o : Obj), s.heap[r]? = some o → o.type = .OBJ_STRING →
    r ∈ tableKeys s.strings
  unique : ∀ k1 ∈ tableKeys s.strings, ∀ k2 ∈ tableKeys s.strings, ∀ c,
    stringContent s k1 = some c → stringContent s k2 = some c → k1 = k2
  registered : ∀ k ∈ tableKeys s.strings, k ∈ registry s

/-- One call into the interner by a client. `copy bytes` is
`copyString(chars, length)` on caller memory holding the `length` bytes;
`take bytes` is `takeString(chars, length)` on storage of `length + 1` bytes
the caller has just allocated and filled with the bytes and a terminator. -/
inductive InternCall where
  | copy (bytes : List Byte)
  | take (bytes : List Byte)
  deriving DecidableEq, Repr

/-- The byte content a call asks for. -/
def InternCall.content : InternCall → List Byte
  | .copy bytes => bytes
  | .take bytes => bytes

/-- Performing one call: the returned reference and the state left. -/
def internStep (s : VM) : InternCall → Option (Nat × VM)
  | .copy bytes => copyString s (.lit bytes) bytes.length
  | .take bytes =>
    let (chars, s1) := allocate s (.chars (bytes ++ [0]))
    takeString s1 (.heap chars) bytes.length

/-- Performing a sequence of calls, first to last. -/
def internRun (s : VM) : List InternCall → Option VM
  | [] => some s
  | c :: cs =>
    match internStep s c with
    | some (_, s1) => internRun s1 cs
    | none => none

/-! ## Example states -/

/-- A state with a Function named `add`: the String at address 0, the
Function at address 1. -/
def addVM : VM :=
  { heap := [⟨.OBJ_STRING, none, .string 3 (.heap 0) (hashString (bytesOf "add") 3)⟩,
             ⟨.OBJ_FUNCTION, some 0, .function 2 0 (some 0) []⟩],
    mem := [some (.chars (bytesOf "add" ++ [0]))],
    objects := some 1, strings := [(0, .nil)], stack := [], frees := [], out := [] }

/-- The state after interning `bytes` as a class name in the initial state,
making a class of that name (address 1) and an instance of it (address 2). -/
def instanceVM (bytes : List Byte) : VM :=
  match copyString initVM (.lit bytes) bytes.length with
  | some (name, s1) =>
    let (klass, s2) := newClass s1 name
    (newInstance s2 klass).2
  | none => initVM

/-- The state after `createObjectType()` in the initial state: the builtin
class `Object` is at address 1, its native method `toString` at address 3. -/
def objectTypeVM : VM :=
  match createObjectType initVM with
  | some (_, s) => s
  | none => initVM

/-- A state holding one Function that captures two variables, at address 0. -/
def captureVM : VM :=
  { heap := [⟨.OBJ_FUNCTION, none, .function 1 2 none []⟩],
    mem := [], objects := some 0, strings := [], stack := [], frees := [], out := [] }

/-- The method mapping `klass->methods` of the class object at `klass`. -/
def classMethods (s : VM) (klass : Nat) : Option Table :=
  match s.heap[klass]? with
  | some ⟨_, _, .klass _ methods⟩ => some methods
  | _ => none

/-- The field mapping `instance->fields` of the instance object at `inst`. -/
def instanceFields (s : VM) (inst : Nat) : Option Table :=
  match s.heap[inst]? with
  | some ⟨_, _, .inst _ fields⟩ => some fields
  | _ => none

/-- A decision procedure for the table contract `InternWF`. -/
def internWFCheck (s : VM) : Bool :=
  (tableKeys s.strings).all fun k =>
    match s.heap[k]? with
    | some ⟨.OBJ_STRING, _, .string length chars _⟩ =>
      match load s chars with
      | some bytes => decide (length ≤ bytes.length)
      | none => false
    | _ => false

/-- The state after `newBuiltinClass("Object")` in the initial state: the name
String is at address 0, the builtin class at address 1. -/
def objectClassVM : VM :=
  match newBuiltinClass initVM (.lit (bytesOf "Object" ++ [0])) with
  | some (_, s) => s
  | none => initVM

/-- The state after `copyString("foo", 3)` in the initial state: the String
`foo` is interned at address 0. -/
def fooVM : VM :=
  match copyString initVM (.lit (bytesOf "foo")) 3 with
  | some (_, s) => s
  | none => initVM

/-- The type tag of the object at address `r`. -/
def tagOf (s : VM) (r : Nat) : Option ObjType :=
  (s.heap[r]?).map fun o => o.type

/-- Reading the stack slot a `Value*` points at; slots are counted from the
bottom of the stack. -/
def readSlot (s : VM) (slot : Nat) : Option Value :=
  s.stack.reverse[slot]?

/-- Reading through `upvalue->location` of the upvalue object at `r`. -/
def readUpvalue (s : VM) (r : Nat) : Option Value :=
  match s.heap[r]? with
  | some ⟨_, _, .upvalue location _ _⟩ => readSlot s location
  | _ => none

/-- The registry links of a state point at objects: the head `vm.objects` and
every `next` link are null or the address of an allocated object. -/
def RegistryClosed (s : VM) : Prop :=
  (∀ r : Nat, s.objects = some r → r < s.heap.length) ∧
  (∀ (r : Nat) (o : Obj) (r2 : Nat), s.heap[r]? = some o → o.next = some r2 →
    r2 < s.heap.length)

/-- State `s2` has the registry of `s1` as the tail of its own, every object
of `s1` is still there under the same type tag, and the links of `s2` point at
objects. -/
def RegistryExtends (s1 s2 : VM) : Prop :=
  (∃ fresh : List Nat, registry s2 = fresh ++ registry s1) ∧
  (∀ (r : Nat) (o : Obj), s1.heap[r]? = some o → tagOf s2 r = some o.type) ∧
  RegistryClosed s2

/-- A decision procedure for `RegistryClosed`. -/
def registryClosedCheck (s : VM) : Bool :=
  (match s.objects with
    | some r => decide (r < s.heap.length)
    | none => true) &&
  s.heap.all fun o =>
    match o.next with
    | some r2 => decide (r2 < s.heap.length)
    | none => true

/-- A state in which `takeString` has adopted storage that holds no terminator
right after the content: the caller hands over the five bytes `addx` and a
zero byte with length 3, so the String at address 0 has content `add`. A
class of that name is at address 1, an instance of it at address 2, and a
Function of that name (as the compiler leaves it after `newFunction` and the
store to `function->name`) at address 3. -/
def adoptedVM : VM :=
  match takeString (allocate initVM (.chars (bytesOf "addx" ++ [0]))).2 (.heap 0) 3 with
  | some (name, s1) =>
    let (klass, s2) := newClass s1 name
    let (_, s3) := newInstance s2 klass
    (allocateObject s3 .OBJ_FUNCTION (.function 0 0 (some name) [])).2
  | none => initVM

end Clox

namespace Clox

/-! ## Hashing: proofs -/

theorem hashStringLoop_succ (key : List Byte) (n i hash : Nat) :
    hashStringLoop key (n + 1) i hash =
      hashStringLoop key n (i + 1) (((hash ^^^ (key.getD i 0).val) * 16777619) % 4294967296) :=
  rfl

/-- Running the loop from index `i` with the reference value `h i` reaches `h (i + n)`. -/
theorem hashStringLoop_ref (key : List Byte) (n i : Nat) :
    hashStringLoop key n i (fnv1aRef key i) = fnv1aRef key (i + n) := by
  induction n generalizing i with
  | zero => rfl
  | succ n ih =>
    rw [hashStringLoop_succ]
    have h : ((fnv1aRef key i ^^^ (key.getD i 0).val) * 16777619) % 4294967296
        = fnv1aRef key (i + 1) := rfl
    rw [h, ih (i + 1)]
    congr 1
    omega

/-- The hash only reads the first `length` bytes. -/
theorem hashStringLoop_congr (k1 k2 : List Byte) (n i hash : Nat)
    (h : ∀ j, i ≤ j → j < i + n → k1.getD j 0 = k2.getD j 0) :
    hashStringLoop k1 n i hash = hashStringLoop k2 n i hash := by
  induction n generalizing i hash with
  | zero => rfl
  | succ n ih =>
    rw [hashStringLoop_succ, hashStringLoop_succ, h i (Nat.le_refl i) (by omega)]
    exact ih (i + 1) _ (fun j h1 h2 => h j (by omega) (by omega))

/-- C4. `hashString` is the seedless 32-bit FNV-1a reference: on every byte
sequence `b` it returns `h_n` of the recurrence `h_0 = 2166136261`,
`h_(i+1) = ((h_i XOR b_i) * 16777619) mod 2^32` with `n` the length of `b`;
the empty sequence hashes to `2166136261`, and two buffers holding the same
first `n` bytes hash equal. -/
theorem hashString_eq_fnv1a :
    (∀ b : List Byte, hashString b b.length = fnv1aRef b b.length) ∧
    hashString [] 0 = 2166136261 ∧
    (∀ (b1 b2 : List Byte) (n : Nat), b1.take n = b2.take n →
      hashString b1 n = hashString b2 n) := by
  refine ⟨?_, rfl, ?_⟩
  · intro b
    have h := hashStringLoop_ref b b.length 0
    simpa [hashString, fnv1aRef] using h
  · intro b1 b2 n h
    unfold hashString
    apply hashStringLoop_congr
    intro j _ hj
    have h1 : (b1.take n).getD j 0 = (b2.take n).getD j 0 := by rw [h]
    simpa [List.getD_eq_getElem?_getD, List.getElem?_take, (by omega : j < n)] using h1

/-- C4 on two distinct buffers holding `foo`: the hashes agree. -/
theorem hashString_eq_fnv1a_witness :
    hashString (bytesOf "foo") 3 = hashString (bytesOf "foo" ++ [0]) 3 :=
  hashString_eq_fnv1a.2.2 (bytesOf "foo") (bytesOf "foo" ++ [0]) 3 (by decide)

/-! ## Frame lemmas -/

theorem load_allocate (s : VM) (blk : Block) (p : CharPtr) (bytes : List Byte)
    (h : load s p = some bytes) : load (allocate s blk).2 p = some bytes := by
  cases p with
  | lit l => simpa [load] using h
  | heap b =>
    have hb : b < s.mem.length := by
      by_contra hc
      have : s.mem[b]? = none := List.getElem?_eq_none (by omega)
      simp [load, this] at h
    simpa [load, allocate, List.getElem?_append_left hb] using h

theorem load_allocate_new (s : VM) (bytes : List Byte) :
    load (allocate s (.chars bytes)).2 (.heap (allocate s (.chars bytes)).1) = some bytes := by
  simp [load, allocate]

theorem load_heap_irrel (s : VM) (h : List Obj) (o : Option Nat) (t : Table)
    (st : List Value) (p : CharPtr) :
    load { s with heap := h, objects := o, strings := t, stack := st } p = load s p := by
  cases p <;> rfl

theorem tableSet_absent (t : Table) (key : Nat) (value : Value)
    (h : key ∉ tableKeys t) : (tableSet t key value).2 = (key, value) :: t := by
  have : t.any (fun e => e.1 == key) = false := by
    rw [Bool.eq_false_iff]
    intro hc
    rw [List.any_eq_true] at hc
    obtain ⟨e, he, hk⟩ := hc
    exact h (List.mem_map.mpr ⟨e, he, by simpa using hk⟩)
  simp [tableSet, this]

theorem tableKeys_tableSet (t : Table) (key : Nat) (value : Value) (k : Nat) :
    k ∈ tableKeys (tableSet t key value).2 ↔ k = key ∨ k ∈ tableKeys t := by
  unfold tableSet
  split
  · rename_i h
    rw [List.any_eq_true] at h
    obtain ⟨e, he, hk⟩ := h
    have hk' : e.1 = key := by simpa using hk
    simp only [tableKeys, List.map_map, List.mem_map, Function.comp]
    constructor
    · rintro ⟨x, hx, rfl⟩
      by_cases hxk : x.1 = key
      · left; simp [hxk]
      · right; exact ⟨x, hx, by simp [hxk]⟩
    · rintro (rfl | ⟨x, hx, rfl⟩)
      · exact ⟨e, he, by simp [hk']⟩
      · by_cases hxk : x.1 = key
        · exact ⟨x, hx, by simp [hxk]⟩
        · exact ⟨x, hx, by simp [hxk]⟩
  · simp [tableKeys]

theorem InternWF_key_lt (s : VM) (hwf : InternWF s) (k : Nat)
    (hk : k ∈ tableKeys s.strings) : k < s.heap.length := by
  obtain ⟨next, length, chars, hash, bytes, h, _, _⟩ := hwf k hk
  by_contra hc
  have : s.heap[k]? = none := List.getElem?_eq_none (by omega)
  simp [this] at h

theorem copied_eq (bytes : List Byte) (n : Nat) (h : n ≤ bytes.length) :
    (memcpy (List.replicate (n + 1) 0) bytes n).set n 0 = bytes.take n ++ [0] := by
  have hl : (bytes.take n).length = n := by simp [h]
  unfold memcpy
  rw [List.set_append_right _ _ (by omega)]
  simp [hl, List.drop_replicate]

/-- What a miss of `copyString` builds, with the copied bytes spelled out. -/
theorem copyString_miss (s : VM) (chars : CharPtr) (n : Nat) (bytes : List Byte)
    (hload : load s chars = some bytes) (hlen : n ≤ bytes.length)
    (hfind : tableFindString s s.strings bytes n (hashString bytes n) = none) :
    copyString s chars n = some (allocateString (allocate s (.chars (bytes.take n ++ [0]))).2
      (.heap s.mem.length) n (hashString bytes n)) := by
  simp [copyString, hload, hlen, hfind, copied_eq bytes n hlen, allocate]

theorem copyString_hit (s : VM) (chars : CharPtr) (n : Nat) (bytes : List Byte) (r : Nat)
    (hload : load s chars = some bytes) (hlen : n ≤ bytes.length)
    (hfind : tableFindString s s.strings bytes n (hashString bytes n) = some r) :
    copyString s chars n = some (r, s) := by
  simp [copyString, hload, hlen, hfind]

/-- The state `allocateString` leaves, field by field. -/
theorem allocateString_eq (s : VM) (chars : CharPtr) (n hash : Nat) :
    allocateString s chars n hash =
      (s.heap.length,
        { s with heap := s.heap ++ [⟨.OBJ_STRING, s.objects, .string n chars hash⟩],
                 objects := some s.heap.length,
                 strings := (tableSet s.strings s.heap.length .nil).2 }) := by
  simp [allocateString, allocateObject, push, pop]

/-- The new String of `allocateString` is found by content in the new state,
provided its storage holds the bytes looked for. -/
theorem keyMatches_new (s : VM) (chars : CharPtr) (n : Nat) (bytes kbytes : List Byte)
    (hload : load s chars = some kbytes) (hlen : n ≤ kbytes.length)
    (heq : kbytes.take n = bytes.take n) :
    keyMatches (allocateString s chars n (hashString bytes n)).2 bytes n
      (hashString bytes n) s.heap.length = true := by
  rw [allocateString_eq]
  simp [keyMatches, load_heap_irrel, hload, hlen, heq]

theorem tableFindString_head (s : VM) (t : Table) (bytes : List Byte) (n hash key : Nat)
    (v : Value) (h : keyMatches s bytes n hash key = true) :
    tableFindString s ((key, v) :: t) bytes n hash = some key := by
  simp [tableFindString, List.find?, h]

/-- After a miss of `copyString`, looking the same bytes up finds the new String. -/
theorem find_after_miss (s : VM) (hwf : InternWF s) (n : Nat) (bytes : List Byte)
    (hlen : n ≤ bytes.length) (s1 : VM)
    (hs1 : s1 = (allocateString (allocate s (.chars (bytes.take n ++ [0]))).2
      (.heap s.mem.length) n (hashString bytes n)).2) :
    tableFindString s1 s1.strings bytes n (hashString bytes n) = some s.heap.length := by
  have hnew : s.heap.length ∉ tableKeys s.strings := fun hc =>
    Nat.lt_irrefl _ (InternWF_key_lt s hwf _ hc)
  have hm := keyMatches_new (allocate s (.chars (bytes.take n ++ [0]))).2
    (.heap s.mem.length) n bytes (bytes.take n ++ [0])
    (load_allocate_new s _) (by simp; omega) (by simp [List.take_append_of_le_length, hlen])
  rw [hs1] at *
  have hstr : (allocateString (allocate s (.chars (bytes.take n ++ [0]))).2
      (.heap s.mem.length) n (hashString bytes n)).2.strings
      = (s.heap.length, Value.nil) :: s.strings := by
    rw [allocateString_eq]
    exact tableSet_absent s.strings s.heap.length .nil hnew
  rw [hstr]
  exact tableFindString_head _ _ _ _ _ _ _ hm

/-- C1. Interning idempotence: in every state whose intern table satisfies the
table contract, and for every readable byte sequence of at least `n` bytes,
`copyString(s, n)` returns a reference, and calling `copyString(s, n)` again in
the resulting state returns the very same reference. -/
theorem copyString_idempotent (s : VM) (chars : CharPtr) (n : Nat) (bytes : List Byte)
    (hwf : InternWF s) (hload : load s chars = some bytes) (hlen : n ≤ bytes.length) :
    ∃ r s1 s2, copyString s chars n = some (r, s1) ∧
      copyString s1 chars n = some (r, s2) := by
  cases hfind : tableFindString s s.strings bytes n (hashString bytes n) with
  | some r =>
    exact ⟨r, s, s, copyString_hit s chars n bytes r hload hlen hfind,
      copyString_hit s chars n bytes r hload hlen hfind⟩
  | none =>
    have h1 := copyString_miss s chars n bytes hload hlen hfind
    have hfst : (allocateString (allocate s (.chars (bytes.take n ++ [0]))).2
        (.heap s.mem.length) n (hashString bytes n)).1 = s.heap.length := by
      rw [allocateString_eq]
      rfl
    have hload1 : load (allocateString (allocate s (.chars (bytes.take n ++ [0]))).2
        (.heap s.mem.length) n (hashString bytes n)).2 chars = some bytes := by
      rw [allocateString_eq]
      simp only [load_heap_irrel]
      exact load_allocate s _ chars bytes hload
    have hf := find_after_miss s hwf n bytes hlen _ rfl
    have hcall : copyString s chars n = some (s.heap.length,
        (allocateString (allocate s (.chars (bytes.take n ++ [0]))).2
          (.heap s.mem.length) n (hashString bytes n)).2) := by
      rw [h1, ← hfst]
    exact ⟨_, _, _, hcall, copyString_hit _ chars n bytes s.heap.length hload1 hlen hf⟩

/-- C1 on `copyString("foo", 3)` in the initial state: both calls return address 0. -/
theorem copyString_idempotent_witness :
    InternWF initVM ∧ load initVM (.lit (bytesOf "foo")) = some (bytesOf "foo") ∧
      3 ≤ (bytesOf "foo").length ∧
      ∃ r s1 s2, copyString initVM (.lit (bytesOf "foo")) 3 = some (r, s1) ∧
        copyString s1 (.lit (bytesOf "foo")) 3 = some (r, s2) :=
  ⟨by intro k hk; simp [initVM, tableKeys] at hk, rfl, by decide,
    copyString_idempotent initVM (.lit (bytesOf "foo")) 3 (bytesOf "foo")
      (by intro k hk; simp [initVM, tableKeys] at hk) rfl (by decide)⟩

/-! ## Growth of states and lookups by content -/

theorem Grows.refl (s : VM) : Grows s s :=
  ⟨fun _ _ h => h, fun _ _ h => h⟩

theorem Grows.trans {s1 s2 s3 : VM} (h12 : Grows s1 s2) (h23 : Grows s2 s3) : Grows s1 s3 :=
  ⟨fun r o h => h23.1 r o (h12.1 r o h), fun p b h => h23.2 p b (h12.2 p b h)⟩

theorem getElem?_append_some {α : Type} (l1 l2 : List α) (i : Nat) (a : α)
    (h : l1[i]? = some a) : (l1 ++ l2)[i]? = some a := by
  have hi : i < l1.length := by
    by_contra hc
    have : l1[i]? = none := List.getElem?_eq_none (by omega)
    simp [this] at h
  rw [List.getElem?_append_left hi]
  exact h

theorem Grows_allocate (s : VM) (blk : Block) : Grows s (allocate s blk).2 :=
  ⟨fun _ _ h => h, fun p b h => load_allocate s blk p b h⟩

theorem Grows_allocateString (s : VM) (chars : CharPtr) (n hash : Nat) :
    Grows s (allocateString s chars n hash).2 := by
  rw [allocateString_eq]
  refine ⟨fun r o h => getElem?_append_some _ _ _ _ h, fun p b h => ?_⟩
  simp only [load_heap_irrel]
  exact h

theorem Grows_allocateObject (s : VM) (type : ObjType) (data : ObjData) :
    Grows s (allocateObject s type data).2 := by
  refine ⟨fun r o h => getElem?_append_some _ _ _ _ h, fun p b h => ?_⟩
  cases p <;> exact h

/-- Releasing the storage that was allocated last keeps everything older. -/
theorem Grows_allocate_free (s : VM) (blk : Block) :
    Grows s { (allocate s blk).2 with
      mem := (allocate s blk).2.mem.set s.mem.length none,
      frees := (allocate s blk).2.frees ++ [s.mem.length] } := by
  refine ⟨fun _ _ h => h, fun p b h => ?_⟩
  cases p with
  | lit l => exact h
  | heap a =>
    have ha : a < s.mem.length := by
      by_contra hc
      have : s.mem[a]? = none := List.getElem?_eq_none (by omega)
      simp [load, this] at h
    have hne : s.mem.length ≠ a := by omega
    simp only [load, allocate, List.getElem?_set_ne hne, List.getElem?_append_left ha]
    simpa [load] using h

theorem keyMatches_grows (s1 s2 : VM) (hg : Grows s1 s2) (bytes : List Byte) (n hash k : Nat)
    (next : Option Nat) (length : Nat) (chars : CharPtr) (khash : Nat) (kbytes : List Byte)
    (hk : s1.heap[k]? = some ⟨.OBJ_STRING, next, .string length chars khash⟩)
    (hl : load s1 chars = some kbytes) :
    keyMatches s2 bytes n hash k = keyMatches s1 bytes n hash k := by
  simp [keyMatches, hk, hg.1 _ _ hk, hl, hg.2 _ _ hl]

theorem find?_congr_mem {α : Type} (l : List α) (p q : α → Bool)
    (h : ∀ x ∈ l, p x = q x) : l.find? p = l.find? q := by
  induction l with
  | nil => rfl
  | cons a l ih =>
    rw [List.find?_cons, List.find?_cons, h a (List.mem_cons_self a l),
      ih (fun x hx => h x (List.mem_cons_of_mem a hx))]

theorem tableFindString_grows (s1 s2 : VM) (hg : Grows s1 s2) (hwf : InternWF s1)
    (bytes : List Byte) (n hash : Nat) :
    tableFindString s2 s1.strings bytes n hash = tableFindString s1 s1.strings bytes n hash := by
  unfold tableFindString
  congr 1
  apply find?_congr_mem
  intro e he
  obtain ⟨next, length, chars, khash, kbytes, hk, hl, _⟩ :=
    hwf e.1 (List.mem_map.mpr ⟨e, he, rfl⟩)
  exact keyMatches_grows s1 s2 hg bytes n hash e.1 next length chars khash kbytes hk hl

theorem keyMatches_take (s : VM) (b1 b2 : List Byte) (n hash k : Nat)
    (h : b1.take n = b2.take n) : keyMatches s b1 n hash k = keyMatches s b2 n hash k := by
  unfold keyMatches
  rw [h]

theorem tableFindString_take (s : VM) (t : Table) (b1 b2 : List Byte) (n hash : Nat)
    (h : b1.take n = b2.take n) :
    tableFindString s t b1 n hash = tableFindString s t b2 n hash := by
  unfold tableFindString
  congr 1
  apply find?_congr_mem
  intro e _
  exact keyMatches_take s b1 b2 n hash e.1 h

theorem hashString_take (b1 b2 : List Byte) (n : Nat) (h : b1.take n = b2.take n) :
    hashString b1 n = hashString b2 n := by
  unfold hashString
  apply hashStringLoop_congr
  intro j _ hj
  have h1 : (b1.take n).getD j 0 = (b2.take n).getD j 0 := by rw [h]
  simpa [List.getD_eq_getElem?_getD, List.getElem?_take, (by omega : j < n)] using h1

/-- The table contract survives `allocateString` when the new storage is readable. -/
theorem InternWF_allocateString (s : VM) (hwf : InternWF s) (chars : CharPtr) (n hash : Nat)
    (kbytes : List Byte) (hl : load s chars = some kbytes) (hn : n ≤ kbytes.length) :
    InternWF (allocateString s chars n hash).2 := by
  have hg := Grows_allocateString s chars n hash
  intro k hk
  have hstr : (allocateString s chars n hash).2.strings
      = (tableSet s.strings s.heap.length .nil).2 := by rw [allocateString_eq]
  rw [hstr, tableKeys_tableSet] at hk
  rcases hk with rfl | hk
  · refine ⟨s.objects, n, chars, hash, kbytes, ?_, hg.2 _ _ hl, hn⟩
    rw [allocateString_eq]
    simp
  · obtain ⟨next, length, c, h, b, h1, h2, h3⟩ := hwf k hk
    exact ⟨next, length, c, h, b, hg.1 _ _ h1, hg.2 _ _ h2, h3⟩

theorem InternWF_grows (s1 s2 : VM) (hwf : InternWF s1) (hg : Grows s1 s2)
    (hs : s2.strings = s1.strings) : InternWF s2 := by
  intro k hk
  rw [hs] at hk
  obtain ⟨next, length, c, h, b, h1, h2, h3⟩ := hwf k hk
  exact ⟨next, length, c, h, b, hg.1 _ _ h1, hg.2 _ _ h2, h3⟩

/-- `copyString` keeps the table contract, only grows the state, and the
reference it returns is found again by a lookup of the same bytes. -/
theorem copyString_spec (s : VM) (hwf : InternWF s) (chars : CharPtr) (n : Nat)
    (bytes : List Byte) (hload : load s chars = some bytes) (hlen : n ≤ bytes.length) :
    ∃ r s1, copyString s chars n = some (r, s1) ∧ InternWF s1 ∧ Grows s s1 ∧
      tableFindString s1 s1.strings bytes n (hashString bytes n) = some r := by
  cases hfind : tableFindString s s.strings bytes n (hashString bytes n) with
  | some r =>
    exact ⟨r, s, copyString_hit s chars n bytes r hload hlen hfind, hwf, Grows.refl s, hfind⟩
  | none =>
    have h1 := copyString_miss s chars n bytes hload hlen hfind
    have hfst : (allocateString (allocate s (.chars (bytes.take n ++ [0]))).2
        (.heap s.mem.length) n (hashString bytes n)).1 = s.heap.length := by
      rw [allocateString_eq]
      rfl
    have hwfa : InternWF (allocate s (.chars (bytes.take n ++ [0]))).2 :=
      InternWF_grows s _ hwf (Grows_allocate s _) rfl
    refine ⟨s.heap.length, (allocateString (allocate s (.chars (bytes.take n ++ [0]))).2
        (.heap s.mem.length) n (hashString bytes n)).2, ?_, ?_, ?_, ?_⟩
    · rw [h1, ← hfst]
    · exact InternWF_allocateString _ hwfa _ _ _ (bytes.take n ++ [0])
        (load_allocate_new s _) (by simp; omega)
    · exact (Grows_allocate s _).trans (Grows_allocateString _ _ _ _)
    · exact find_after_miss s hwf n bytes hlen _ rfl

/-- A hit of `takeString` on storage the caller allocated last: the canonical
reference comes back and exactly that storage is released. -/
theorem takeString_fresh_hit (s : VM) (hwf : InternWF s) (n : Nat) (bytes own : List Byte)
    (r : Nat) (hown : own.take n = bytes.take n) (hownlen : n ≤ own.length)
    (hfind : tableFindString s s.strings bytes n (hashString bytes n) = some r) :
    takeString (allocate s (.chars own)).2 (.heap s.mem.length) n =
      some (r, { (allocate s (.chars own)).2 with
        mem := (allocate s (.chars own)).2.mem.set s.mem.length none,
        frees := (allocate s (.chars own)).2.frees ++ [s.mem.length] }) := by
  have hl : load (allocate s (.chars own)).2 (.heap s.mem.length) = some own :=
    load_allocate_new s own
  have hf : tableFindString (allocate s (.chars own)).2 (allocate s (.chars own)).2.strings
      own n (hashString own n) = some r := by
    rw [hashString_take own bytes n hown, tableFindString_take _ _ own bytes n _ hown]
    exact (tableFindString_grows s _ (Grows_allocate s _) hwf bytes n _).trans hfind
  have hfree : freeArray (allocate s (.chars own)).2 (.heap s.mem.length) =
      some { (allocate s (.chars own)).2 with
        mem := (allocate s (.chars own)).2.mem.set s.mem.length none,
        frees := (allocate s (.chars own)).2.frees ++ [s.mem.length] } := by
    simp [freeArray, allocate]
  simp only [takeString, hl, hownlen, if_true, hf, hfree]

/-- C2. Take-construct canonicalisation: when `copyString(s, n)` returned `r`,
`takeString` on a separate buffer the caller allocated afterwards, holding the
same `n` bytes, returns `r`; the buffer is released exactly once (one new
entry in the release log, the buffer itself, which is then gone); no object
is created (heap, registry head and intern table are as before) and everything
that was readable before the call still is. -/
theorem takeString_canonical (s : VM) (chars : CharPtr) (n : Nat) (bytes own : List Byte)
    (r : Nat) (s1 : VM)
    (hwf : InternWF s) (hload : load s chars = some bytes) (hlen : n ≤ bytes.length)
    (hown : own.take n = bytes.take n) (hownlen : n ≤ own.length)
    (hcopy : copyString s chars n = some (r, s1)) :
    ∃ s3, takeString (allocate s1 (.chars own)).2 (.heap (allocate s1 (.chars own)).1) n
        = some (r, s3) ∧
      s3.frees = s1.frees ++ [(allocate s1 (.chars own)).1] ∧
      s3.mem[(allocate s1 (.chars own)).1]? = some none ∧
      s3.heap = s1.heap ∧ s3.objects = s1.objects ∧ s3.strings = s1.strings ∧
      Grows s1 s3 := by
  obtain ⟨r0, s0, h0, hwf1, _, hfind⟩ := copyString_spec s hwf chars n bytes hload hlen
  rw [hcopy] at h0
  obtain ⟨rfl, rfl⟩ : r = r0 ∧ s1 = s0 := by simpa using h0
  refine ⟨_, takeString_fresh_hit s1 hwf1 n bytes own r hown hownlen hfind, rfl, ?_, rfl, rfl,
    rfl, Grows_allocate_free s1 _⟩
  simp [allocate]

/-- C2 on the bytes of `foo`: interned from a literal, then taken from a fresh buffer. -/
theorem takeString_canonical_witness :
    ∃ s3, takeString (allocate (allocateString (allocate initVM
          (.chars (bytesOf "foo" ++ [0]))).2 (.heap 0) 3 2851307223).2
          (.chars (bytesOf "foo" ++ [0]))).2 (.heap 1) 3 = some (0, s3) ∧
      s3.frees = [1] ∧ s3.mem[1]? = some none ∧ s3.heap.length = 1 :=
  let h := takeString_canonical initVM (.lit (bytesOf "foo")) 3 (bytesOf "foo")
    (bytesOf "foo" ++ [0]) 0
    (allocateString (allocate initVM (.chars (bytesOf "foo" ++ [0]))).2 (.heap 0) 3
      2851307223).2
    (by intro k hk; simp [initVM, tableKeys] at hk) rfl (by decide) (by decide) (by decide)
    (by decide)
  h.elim fun s3 hs => ⟨s3, hs.1, hs.2.1, hs.2.2.1, by rw [hs.2.2.2.1]; decide⟩

/-! ## The registry -/

theorem registryWalk_mono (h1 h2 : List Obj)
    (hh : ∀ (r : Nat) (o : Obj), h1[r]? = some o → h2[r]? = some o)
    (fuel : Nat) (head : Option Nat) (x : Nat) (hx : x ∈ registryWalk h1 fuel head) :
    x ∈ registryWalk h2 fuel head := by
  induction fuel generalizing head with
  | zero => simp [registryWalk] at hx
  | succ f ih =>
    cases head with
    | none => simp [registryWalk] at hx
    | some r =>
      cases hr : h1[r]? with
      | none => simp [registryWalk, hr] at hx
      | some o =>
        simp only [registryWalk, hr, List.mem_cons] at hx
        simp only [registryWalk, hh r o hr, List.mem_cons]
        rcases hx with hx | hx
        · exact Or.inl hx
        · exact Or.inr (ih _ hx)

/-- The registry head is on the registry. -/
theorem head_mem_registry (s : VM) (r : Nat) (hobj : s.objects = some r)
    (hr : r < s.heap.length) : r ∈ registry s := by
  unfold registry
  rw [hobj]
  obtain ⟨f, hf⟩ : ∃ f, s.heap.length = f + 1 := ⟨s.heap.length - 1, by omega⟩
  rw [hf]
  have : s.heap[r]? = some s.heap[r] := List.getElem?_eq_getElem hr
  simp [registryWalk, this]

/-- `allocateObject` puts the new object on the registry and keeps the others. -/
theorem registry_allocateObject (s : VM) (type : ObjType) (data : ObjData) :
    (allocateObject s type data).1 ∈ registry (allocateObject s type data).2 ∧
    ∀ x ∈ registry s, x ∈ registry (allocateObject s type data).2 := by
  constructor
  · exact head_mem_registry _ _ rfl (by simp [allocateObject])
  · intro x hx
    have h1 := registryWalk_mono s.heap (s.heap ++ [⟨type, s.objects, data⟩])
      (fun r o h => getElem?_append_some _ _ _ _ h) _ _ x hx
    have hnew : (s.heap ++ [(⟨type, s.objects, data⟩ : Obj)])[s.heap.length]?
        = some ⟨type, s.objects, data⟩ := by simp
    simp only [registry, allocateObject, List.length_append, List.length_singleton,
      registryWalk, hnew, List.mem_cons]
    exact Or.inr h1

theorem registry_allocateString (s : VM) (chars : CharPtr) (n hash : Nat) :
    (allocateString s chars n hash).1 ∈ registry (allocateString s chars n hash).2 ∧
    ∀ x ∈ registry s, x ∈ registry (allocateString s chars n hash).2 := by
  have h := registry_allocateObject s .OBJ_STRING (.string n chars hash)
  rw [allocateString_eq]
  exact h

/-- The registry only depends on the heap and the head. -/
theorem registry_congr (s1 s2 : VM) (hh : s2.heap = s1.heap) (ho : s2.objects = s1.objects) :
    registry s2 = registry s1 := by
  unfold registry
  rw [hh, ho]

/-! ## The interner invariant -/

theorem KeyOk_grows (s1 s2 : VM) (hg : Grows s1 s2) (k : Nat) (hk : KeyOk s1 k) :
    KeyOk s2 k := by
  obtain ⟨next, length, chars, bytes, h1, h2, h3⟩ := hk
  exact ⟨next, length, chars, bytes, hg.1 _ _ h1, hg.2 _ _ h2, h3⟩

theorem InternWF_of_keysOk (s : VM) (h : ∀ k ∈ tableKeys s.strings, KeyOk s k) :
    InternWF s := by
  intro k hk
  obtain ⟨next, length, chars, bytes, h1, h2, h3⟩ := h k hk
  exact ⟨next, length, chars, _, bytes, h1, h2, h3⟩

theorem stringContent_of (s : VM) (k : Nat) (next : Option Nat) (length : Nat)
    (chars : CharPtr) (hash : Nat) (bytes : List Byte)
    (hk : s.heap[k]? = some ⟨.OBJ_STRING, next, .string length chars hash⟩)
    (hl : load s chars = some bytes) (hn : length ≤ bytes.length) :
    stringContent s k = some (bytes.take length) := by
  simp [stringContent, hk, hl, hn]

theorem stringContent_grows (s1 s2 : VM) (hg : Grows s1 s2) (k : Nat) (hk : KeyOk s1 k) :
    stringContent s2 k = stringContent s1 k := by
  obtain ⟨next, length, chars, bytes, h1, h2, h3⟩ := hk
  rw [stringContent_of s1 k next length chars _ bytes h1 h2 h3,
    stringContent_of s2 k next length chars _ bytes (hg.1 _ _ h1) (hg.2 _ _ h2) h3]

/-- On a key in good standing the lookup's comparison succeeds exactly when the
key's content is the content looked for. -/
theorem keyMatches_iff_content (s : VM) (k : Nat) (hk : KeyOk s k) (b : List Byte) (n : Nat)
    (hn : n ≤ b.length) :
    keyMatches s b n (hashString b n) k = true ↔ stringContent s k = some (b.take n) := by
  obtain ⟨next, length, chars, bytes, h1, h2, h3⟩ := hk
  rw [stringContent_of s k next length chars _ bytes h1 h2 h3]
  simp only [keyMatches, h1, h2, Bool.and_eq_true, beq_iff_eq, decide_eq_true_eq,
    Option.some.injEq]
  constructor
  · rintro ⟨⟨⟨rfl, _⟩, _⟩, h⟩
    exact h
  · intro h
    have hlen : length = n := by
      have := congrArg List.length h
      simp only [List.length_take] at this
      omega
    subst hlen
    exact ⟨⟨⟨rfl, hashString_take bytes b length h⟩, h3⟩, h⟩

theorem tableFindString_some (s : VM) (t : Table) (b : List Byte) (n hash r : Nat)
    (h : tableFindString s t b n hash = some r) :
    r ∈ tableKeys t ∧ keyMatches s b n hash r = true := by
  unfold tableFindString at h
  cases hf : t.find? (fun e => keyMatches s b n hash e.1) with
  | none => simp [hf] at h
  | some e =>
    rw [hf] at h
    have he : e.1 = r := by simpa using h
    subst he
    have hp : keyMatches s b n hash e.1 = true :=
      @List.find?_some _ (fun e : Nat × Value => keyMatches s b n hash e.1) e t hf
    exact ⟨List.mem_map.mpr ⟨e, List.mem_of_find?_eq_some hf, rfl⟩, hp⟩

theorem tableFindString_none (s : VM) (t : Table) (b : List Byte) (n hash : Nat)
    (h : tableFindString s t b n hash = none) (k : Nat) (hk : k ∈ tableKeys t) :
    keyMatches s b n hash k = false := by
  unfold tableFindString at h
  have hf : t.find? (fun e => keyMatches s b n hash e.1) = none := by
    cases hc : t.find? (fun e => keyMatches s b n hash e.1) with
    | none => rfl
    | some e => simp [hc] at h
  rw [List.find?_eq_none] at hf
  obtain ⟨e, he, rfl⟩ := List.mem_map.mp hk
  simpa using hf e he

theorem InternInv_init : InternInv initVM :=
  ⟨by intro k hk; simp [initVM, tableKeys] at hk,
   by intro r o h; simp [initVM] at h,
   by intro k hk; simp [initVM, tableKeys] at hk,
   by intro k hk; simp [initVM, tableKeys] at hk⟩

/-- A change that keeps heap, registry head and intern table, and only grows
what is readable, keeps the invariant. -/
theorem InternInv_frame (s1 s2 : VM) (hinv : InternInv s1) (hg : Grows s1 s2)
    (hh : s2.heap = s1.heap) (hs : s2.strings = s1.strings) (ho : s2.objects = s1.objects) :
    InternInv s2 := by
  refine ⟨?_, ?_, ?_, ?_⟩
  · intro k hk
    rw [hs] at hk
    exact KeyOk_grows s1 s2 hg k (hinv.keysOk k hk)
  · intro r o h ht
    rw [hh] at h
    rw [hs]
    exact hinv.allInterned r o h ht
  · intro k1 hk1 k2 hk2 c h1 h2
    rw [hs] at hk1 hk2
    rw [stringContent_grows s1 s2 hg k1 (hinv.keysOk k1 hk1)] at h1
    rw [stringContent_grows s1 s2 hg k2 (hinv.keysOk k2 hk2)] at h2
    exact hinv.unique k1 hk1 k2 hk2 c h1 h2
  · intro k hk
    rw [hs] at hk
    rw [registry_congr s1 s2 hh ho]
    exact hinv.registered k hk

/-- Interning a String for content no key has yet keeps the invariant. -/
theorem InternInv_allocateString (s : VM) (hinv : InternInv s) (chars : CharPtr) (n : Nat)
    (kbytes : List Byte) (hl : load s chars = some kbytes) (hn : n ≤ kbytes.length)
    (hnew : ∀ k ∈ tableKeys s.strings, stringContent s k ≠ some (kbytes.take n)) :
    InternInv (allocateString s chars n (hashString kbytes n)).2 ∧
    stringContent (allocateString s chars n (hashString kbytes n)).2 s.heap.length
      = some (kbytes.take n) ∧
    s.heap.length ∈ tableKeys (allocateString s chars n (hashString kbytes n)).2.strings := by
  have hg := Grows_allocateString s chars n (hashString kbytes n)
  have hreg := registry_allocateString s chars n (hashString kbytes n)
  have hstr : (allocateString s chars n (hashString kbytes n)).2.strings
      = (tableSet s.strings s.heap.length .nil).2 := by rw [allocateString_eq]
  have hheap : (allocateString s chars n (hashString kbytes n)).2.heap
      = s.heap ++ [⟨.OBJ_STRING, s.objects, .string n chars (hashString kbytes n)⟩] := by
    rw [allocateString_eq]
  have hfst : (allocateString s chars n (hashString kbytes n)).1 = s.heap.length := by
    rw [allocateString_eq]
  have hobj : (allocateString s chars n (hashString kbytes n)).2.heap[s.heap.length]? =
      some ⟨.OBJ_STRING, s.objects, .string n chars (hashString kbytes n)⟩ := by
    rw [hheap]; simp
  have hkey : KeyOk (allocateString s chars n (hashString kbytes n)).2 s.heap.length :=
    ⟨s.objects, n, chars, kbytes, hobj, hg.2 _ _ hl, hn⟩
  have hcont : stringContent (allocateString s chars n (hashString kbytes n)).2 s.heap.length
      = some (kbytes.take n) :=
    stringContent_of _ _ _ _ _ _ _ hobj (hg.2 _ _ hl) hn
  have hmem : s.heap.length ∈ tableKeys (allocateString s chars n (hashString kbytes n)).2.strings := by
    rw [hstr, tableKeys_tableSet]; exact Or.inl rfl
  refine ⟨⟨?_, ?_, ?_, ?_⟩, hcont, hmem⟩
  · intro k hk
    rw [hstr, tableKeys_tableSet] at hk
    rcases hk with rfl | hk
    · exact hkey
    · exact KeyOk_grows _ _ hg k (hinv.keysOk k hk)
  · intro r o h ht
    rw [hstr, tableKeys_tableSet]
    rw [hheap] at h
    by_cases hr : r < s.heap.length
    · rw [List.getElem?_append_left hr] at h
      exact Or.inr (hinv.allInterned r o h ht)
    · by_cases hr2 : r = s.heap.length
      · exact Or.inl hr2
      · have : (s.heap ++ [(⟨.OBJ_STRING, s.objects,
            .string n chars (hashString kbytes n)⟩ : Obj)])[r]? = none :=
          List.getElem?_eq_none (by simp; omega)
        rw [this] at h
        exact absurd h (by simp)
  · intro k1 hk1 k2 hk2 c h1 h2
    rw [hstr, tableKeys_tableSet] at hk1 hk2
    rcases hk1 with rfl | hk1 <;> rcases hk2 with rfl | hk2
    · rfl
    · rw [hcont] at h1
      rw [stringContent_grows _ _ hg k2 (hinv.keysOk k2 hk2)] at h2
      rw [← h1] at h2
      exact absurd h2 (hnew k2 hk2)
    · rw [hcont] at h2
      rw [stringContent_grows _ _ hg k1 (hinv.keysOk k1 hk1)] at h1
      rw [← h2] at h1
      exact absurd h1 (hnew k1 hk1)
    · rw [stringContent_grows _ _ hg k1 (hinv.keysOk k1 hk1)] at h1
      rw [stringContent_grows _ _ hg k2 (hinv.keysOk k2 hk2)] at h2
      exact hinv.unique k1 hk1 k2 hk2 c h1 h2
  · intro k hk
    rw [hstr, tableKeys_tableSet] at hk
    rcases hk with rfl | hk
    · rw [← hfst]; exact hreg.1
    · exact hreg.2 k (hinv.registered k hk)

theorem takeString_fresh_miss (s : VM) (hwf : InternWF s) (n : Nat) (bytes own : List Byte)
    (hown : own.take n = bytes.take n) (hownlen : n ≤ own.length)
    (hfind : tableFindString s s.strings bytes n (hashString bytes n) = none) :
    takeString (allocate s (.chars own)).2 (.heap s.mem.length) n =
      some (allocateString (allocate s (.chars own)).2 (.heap s.mem.length) n
        (hashString own n)) := by
  have hl : load (allocate s (.chars own)).2 (.heap s.mem.length) = some own :=
    load_allocate_new s own
  have hf : tableFindString (allocate s (.chars own)).2 (allocate s (.chars own)).2.strings
      own n (hashString own n) = none := by
    rw [hashString_take own bytes n hown, tableFindString_take _ _ own bytes n _ hown]
    exact (tableFindString_grows s _ (Grows_allocate s _) hwf bytes n _).trans hfind
  simp only [takeString, hl, hownlen, if_true, hf]

/-- When the lookup misses, no key has the content looked for. -/
theorem no_key_of_miss (s : VM) (hkeys : ∀ k ∈ tableKeys s.strings, KeyOk s k)
    (b : List Byte) (n : Nat)
    (hn : n ≤ b.length)
    (hfind : tableFindString s s.strings b n (hashString b n) = none)
    (k : Nat) (hk : k ∈ tableKeys s.strings) : stringContent s k ≠ some (b.take n) := by
  intro hc
  have h1 := (keyMatches_iff_content s k (hkeys k hk) b n hn).mpr hc
  rw [tableFindString_none s s.strings b n _ hfind k hk] at h1
  exact Bool.false_ne_true h1

/-- When the lookup hits, the key found has the content looked for. -/
theorem key_of_hit (s : VM) (hkeys : ∀ k ∈ tableKeys s.strings, KeyOk s k)
    (b : List Byte) (n r : Nat)
    (hn : n ≤ b.length)
    (hfind : tableFindString s s.strings b n (hashString b n) = some r) :
    r ∈ tableKeys s.strings ∧ stringContent s r = some (b.take n) := by
  obtain ⟨hk, hm⟩ := tableFindString_some s s.strings b n _ r hfind
  exact ⟨hk, (keyMatches_iff_content s r (hkeys r hk) b n hn).mp hm⟩

/-- One call keeps the invariant and returns an interned String with the
content asked for. -/
theorem internStep_spec (s : VM) (hinv : InternInv s) (call : InternCall) :
    ∃ r s1, internStep s call = some (r, s1) ∧ InternInv s1 ∧
      stringContent s1 r = some call.content ∧ r ∈ tableKeys s1.strings := by
  have hwf := InternWF_of_keysOk s hinv.keysOk
  cases call with
  | copy bytes =>
    have hload : load s (.lit bytes) = some bytes := rfl
    cases hfind : tableFindString s s.strings bytes bytes.length
        (hashString bytes bytes.length) with
    | some r =>
      obtain ⟨hk, hc⟩ := key_of_hit s hinv.keysOk bytes bytes.length r (Nat.le_refl _) hfind
      refine ⟨r, s, copyString_hit s _ _ bytes r hload (Nat.le_refl _) hfind, hinv, ?_, hk⟩
      simpa [InternCall.content] using hc
    | none =>
      have h1 := copyString_miss s (.lit bytes) bytes.length bytes hload (Nat.le_refl _) hfind
      have hga := Grows_allocate s (.chars (bytes.take bytes.length ++ [0]))
      have hinva : InternInv (allocate s (.chars (bytes.take bytes.length ++ [0]))).2 :=
        InternInv_frame s _ hinv hga rfl rfl rfl
      have htake : (bytes.take bytes.length ++ [0]).take bytes.length
          = bytes.take bytes.length := by simp
      have hhash : hashString (bytes.take bytes.length ++ [0]) bytes.length
          = hashString bytes bytes.length := hashString_take _ _ _ htake
      have h2 := InternInv_allocateString _ hinva (.heap s.mem.length) bytes.length
        (bytes.take bytes.length ++ [0]) (load_allocate_new s _) (by simp)
        (by
          intro k hk
          rw [stringContent_grows s _ hga k (hinv.keysOk k hk), htake]
          exact no_key_of_miss s hinv.keysOk bytes _ (Nat.le_refl _) hfind k hk)
      rw [hhash, htake] at h2
      refine ⟨s.heap.length, _, ?_, h2.1, ?_, h2.2.2⟩
      · show copyString s (.lit bytes) bytes.length = _
        rw [h1, allocateString_eq]
        rfl
      · simpa [InternCall.content] using h2.2.1
  | take bytes =>
    have hown : (bytes ++ [0]).take bytes.length = bytes.take bytes.length := by simp
    have hownlen : bytes.length ≤ (bytes ++ [0]).length := by simp
    cases hfind : tableFindString s s.strings bytes bytes.length
        (hashString bytes bytes.length) with
    | some r =>
      obtain ⟨hk, hc⟩ := key_of_hit s hinv.keysOk bytes bytes.length r (Nat.le_refl _) hfind
      have h1 := takeString_fresh_hit s hwf bytes.length bytes (bytes ++ [0]) r hown hownlen
        hfind
      have hg := Grows_allocate_free s (.chars (bytes ++ [0]))
      refine ⟨r, _, h1, InternInv_frame s _ hinv hg rfl rfl rfl, ?_, hk⟩
      rw [stringContent_grows s _ hg r (hinv.keysOk r hk)]
      simpa [InternCall.content] using hc
    | none =>
      have h1 := takeString_fresh_miss s hwf bytes.length bytes (bytes ++ [0]) hown hownlen
        hfind
      have hga := Grows_allocate s (.chars (bytes ++ [0]))
      have hinva : InternInv (allocate s (.chars (bytes ++ [0]))).2 :=
        InternInv_frame s _ hinv hga rfl rfl rfl
      have h2 := InternInv_allocateString _ hinva (.heap s.mem.length) bytes.length
        (bytes ++ [0]) (load_allocate_new s _) hownlen
        (by
          intro k hk
          rw [stringContent_grows s _ hga k (hinv.keysOk k hk), hown]
          exact no_key_of_miss s hinv.keysOk bytes _ (Nat.le_refl _) hfind k hk)
      refine ⟨s.heap.length, _, ?_, h2.1, ?_, h2.2.2⟩
      · show takeString (allocate s (.chars (bytes ++ [0]))).2 (.heap s.mem.length)
          bytes.length = _
        rw [h1, allocateString_eq]
        rfl
      · simpa [InternCall.content] using h2.2.1

theorem internRun_spec (calls : List InternCall) (s : VM) (hinv : InternInv s) :
    ∃ s1, internRun s calls = some s1 ∧ InternInv s1 := by
  induction calls generalizing s with
  | nil => exact ⟨s, rfl, hinv⟩
  | cons c cs ih =>
    obtain ⟨r, s1, h1, hinv1, _, _⟩ := internStep_spec s hinv c
    obtain ⟨s2, h2, hinv2⟩ := ih s1 hinv1
    exact ⟨s2, by simp [internRun, h1, h2], hinv2⟩

/-- Under the invariant two String objects with the same content are one. -/
theorem InternInv_unique (s : VM) (hinv : InternInv s) (r1 r2 : Nat) (c : List Byte)
    (h1 : stringContent s r1 = some c) (h2 : stringContent s r2 = some c) : r1 = r2 := by
  have key : ∀ r, stringContent s r = some c → r ∈ tableKeys s.strings := by
    intro r h
    cases ho : s.heap[r]? with
    | none => simp [stringContent, ho] at h
    | some o =>
      apply hinv.allInterned r o ho
      obtain ⟨ty, nx, d⟩ := o
      cases ty <;> first | rfl | simp [stringContent, ho] at h
  exact hinv.unique r1 (key r1 h1) r2 (key r2 h2) c h1 h2

/-- C3. Intern uniqueness: starting from the initial state (empty intern table),
every sequence of `copyString` and `takeString` calls runs to a state in which
no two String objects have the same byte content, whether one looks at the
heap, the registry or the intern table; and one more call for content `c`
returns a String with content `c` that is on the registry and in the intern
table and is the only String object with that content. -/
theorem intern_unique (calls : List InternCall) :
    ∃ s, internRun initVM calls = some s ∧
      (∀ r1 r2 c, stringContent s r1 = some c → stringContent s r2 = some c → r1 = r2) ∧
      (∀ call : InternCall, ∃ r s1, internStep s call = some (r, s1) ∧
        stringContent s1 r = some call.content ∧
        r ∈ registry s1 ∧ r ∈ tableKeys s1.strings ∧
        ∀ r2, stringContent s1 r2 = some call.content → r2 = r) := by
  obtain ⟨s, hrun, hinv⟩ := internRun_spec calls initVM InternInv_init
  refine ⟨s, hrun, fun r1 r2 c => InternInv_unique s hinv r1 r2 c, fun call => ?_⟩
  obtain ⟨r, s1, h1, hinv1, hc, hk⟩ := internStep_spec s hinv call
  exact ⟨r, s1, h1, hc, hinv1.registered r hk, hk,
    fun r2 h2 => InternInv_unique s1 hinv1 r2 r _ h2 hc⟩

/-- C3 on a short run: after copying `foo`, taking `foo` and copying `bar`, a
`takeString` of `bar` returns a registered String with content `bar`. -/
theorem intern_unique_witness :
    ∃ s, internRun initVM [.copy (bytesOf "foo"), .take (bytesOf "foo"),
        .copy (bytesOf "bar")] = some s ∧
      ∃ r s1, internStep s (.take (bytesOf "bar")) = some (r, s1) ∧
        stringContent s1 r = some (bytesOf "bar") ∧ r ∈ registry s1 :=
  (intern_unique [.copy (bytesOf "foo"), .take (bytesOf "foo"), .copy (bytesOf "bar")]).elim
    fun s hs => ⟨s, hs.1, (hs.2.2 (.take (bytesOf "bar"))).elim fun r hr =>
      hr.elim fun s1 h => ⟨r, s1, h.1, h.2.1, h.2.2.1⟩⟩

/-! ## Registry completeness -/

theorem strlen_le (bytes : List Byte) (n : Nat) (h : strlen bytes = some n) :
    n ≤ bytes.length := by
  induction bytes generalizing n with
  | nil => simp [strlen] at h
  | cons c rest ih =>
    by_cases hc : c = 0
    · simp [strlen, hc] at h
      omega
    · simp only [strlen, hc, if_false, Option.map_eq_some'] at h
      obtain ⟨m, hm, rfl⟩ := h
      have := ih m hm
      simp
      omega

/-- `copyString` on readable bytes returns; its result is on the registry when
the intern table's keys are, and the state only grows. -/
theorem copyString_registry (s : VM) (hreg : ∀ k ∈ tableKeys s.strings, k ∈ registry s)
    (chars : CharPtr) (n : Nat) (bytes : List Byte)
    (hload : load s chars = some bytes) (hlen : n ≤ bytes.length) :
    ∃ r s1, copyString s chars n = some (r, s1) ∧ r ∈ registry s1 ∧ Grows s s1 := by
  cases hfind : tableFindString s s.strings bytes n (hashString bytes n) with
  | some r =>
    exact ⟨r, s, copyString_hit s chars n bytes r hload hlen hfind,
      hreg r (tableFindString_some s _ _ _ _ r hfind).1, Grows.refl s⟩
  | none =>
    have h1 := copyString_miss s chars n bytes hload hlen hfind
    exact ⟨_, _, h1, (registry_allocateString _ _ _ _).1,
      (Grows_allocate s _).trans (Grows_allocateString _ _ _ _)⟩

/-- `takeString` on readable allocated storage returns, and its result is on
the registry when the intern table's keys are. -/
theorem takeString_registry (s : VM) (hreg : ∀ k ∈ tableKeys s.strings, k ∈ registry s)
    (b n : Nat) (bytes : List Byte)
    (hload : load s (.heap b) = some bytes) (hlen : n ≤ bytes.length) :
    ∃ r s1, takeString s (.heap b) n = some (r, s1) ∧ r ∈ registry s1 := by
  have hmem : s.mem[b]? = some (some (.chars bytes)) := by
    simp only [load] at hload
    split at hload
    · rename_i bs hb
      rw [hb]
      simpa using hload
    · exact absurd hload (by simp)
  cases hfind : tableFindString s s.strings bytes n (hashString bytes n) with
  | some r =>
    refine ⟨r, { s with mem := s.mem.set b none, frees := s.frees ++ [b] }, ?_, ?_⟩
    · simp [takeString, hload, hlen, hfind, freeArray, hmem]
    · exact hreg r (tableFindString_some s _ _ _ _ r hfind).1
  | none =>
    refine ⟨_, _, ?_, (registry_allocateString s (.heap b) n (hashString bytes n)).1⟩
    simp [takeString, hload, hlen, hfind]

theorem newClosure_registry (s : VM) (function : Nat) (type : ObjType) (next : Option Nat)
    (arity upvalueCount : Nat) (name : Option Nat) (chunk : List Nat)
    (hf : s.heap[function]? = some ⟨type, next, .function arity upvalueCount name chunk⟩) :
    ∃ r s1, newClosure s function = some (r, s1) ∧ r ∈ registry s1 := by
  refine ⟨_, _, ?_, (registry_allocateObject
    (allocate s (.upvalues (clearUpvalues (List.replicate upvalueCount (some 0))
      upvalueCount 0))).2 .OBJ_CLOSURE (.closure function s.mem.length upvalueCount)).1⟩
  simp only [newClosure, hf, allocate]

/-- The state `newBuiltinClass` leaves once the name is interned. -/
theorem newBuiltinClass_eq (s : VM) (name : CharPtr) (nameBytes : List Byte) (n str : Nat)
    (s1 : VM) (hload : load s name = some nameBytes) (hstrlen : strlen nameBytes = some n)
    (h1 : copyString s name n = some (str, s1)) :
    newBuiltinClass s name = some (s1.heap.length,
      { s1 with heap := s1.heap ++ [⟨.OBJ_BUILTIN_CLASS, s1.objects, .klass str initTable⟩],
                objects := some s1.heap.length }) := by
  simp only [newBuiltinClass, hload, hstrlen, h1, peek, push, pop, allocateObject,
    List.getElem?_cons_zero, Option.some_bind, asObj, List.tail_cons]

/-- The state `defineBuiltinMethod` leaves once the name is interned. -/
theorem defineBuiltinMethod_eq (s : VM) (klass : Nat) (name : CharPtr) (function : Nat)
    (nameBytes : List Byte) (n str : Nat) (s1 : VM)
    (type : ObjType) (next : Option Nat) (cname : Nat) (methods : Table)
    (hload : load s name = some nameBytes) (hstrlen : strlen nameBytes = some n)
    (h1 : copyString s name n = some (str, s1))
    (hk : s1.heap[klass]? = some ⟨type, next, .klass cname methods⟩) :
    defineBuiltinMethod s klass name function = some (s1.heap.length,
      { s1 with
        heap := (s1.heap ++
            [(⟨.OBJ_NATIVE_METHOD, s1.objects, .nativeMethod function⟩ : Obj)]).set klass
          (⟨type, next, .klass cname (tableSet methods str (.obj s1.heap.length)).2⟩ : Obj),
        objects := some s1.heap.length }) := by
  have hk1 : (s1.heap ++ [(⟨.OBJ_NATIVE_METHOD, s1.objects, .nativeMethod function⟩ : Obj)])[klass]?
      = some ⟨type, next, .klass cname methods⟩ :=
    getElem?_append_some _ _ _ _ hk
  simp only [defineBuiltinMethod, hload, hstrlen, h1, peek, push, pop, newNativeMethod,
    allocateObject, List.getElem?_cons_zero, List.getElem?_cons_succ, Option.some_bind, asObj,
    List.tail_cons, setMethod, hk1]

theorem newBuiltinClass_registry (s : VM) (hreg : ∀ k ∈ tableKeys s.strings, k ∈ registry s)
    (name : CharPtr) (nameBytes : List Byte) (n : Nat)
    (hload : load s name = some nameBytes) (hstrlen : strlen nameBytes = some n) :
    ∃ r s1, newBuiltinClass s name = some (r, s1) ∧ r ∈ registry s1 := by
  obtain ⟨str, s1, h1, _, _⟩ :=
    copyString_registry s hreg name n nameBytes hload (strlen_le _ _ hstrlen)
  exact ⟨_, _, newBuiltinClass_eq s name nameBytes n str s1 hload hstrlen h1,
    head_mem_registry _ _ rfl (by simp)⟩

theorem defineBuiltinMethod_registry (s : VM)
    (hreg : ∀ k ∈ tableKeys s.strings, k ∈ registry s)
    (klass : Nat) (name : CharPtr) (function : Nat) (nameBytes : List Byte) (n : Nat)
    (type : ObjType) (next : Option Nat) (cname : Nat) (methods : Table)
    (hload : load s name = some nameBytes) (hstrlen : strlen nameBytes = some n)
    (hk : s.heap[klass]? = some ⟨type, next, .klass cname methods⟩) :
    ∃ r s1, defineBuiltinMethod s klass name function = some (r, s1) ∧ r ∈ registry s1 := by
  obtain ⟨str, s1, h1, _, hg⟩ :=
    copyString_registry s hreg name n nameBytes hload (strlen_le _ _ hstrlen)
  exact ⟨_, _, defineBuiltinMethod_eq s klass name function nameBytes n str s1 type next cname
    methods hload hstrlen h1 (hg.1 _ _ hk), head_mem_registry _ _ rfl (by simp)⟩

/-- C5. Registry completeness: in a state whose intern-table keys are on the
registry, every construction entry point (`newBoundMethod`, `newClass`,
`newBuiltinClass`, the native method of `defineBuiltinMethod`, `newClosure`,
`newFunction`, `newInstance`, `newNative`, `newUpvalue`, `copyString`,
`takeString`) returns, on arguments it can read, an object that is reached
from `vm.objects` along the `next` links in the resulting state; this includes
`copyString` and `takeString` returning an already interned String. -/
theorem registry_complete (s : VM) (hreg : ∀ k ∈ tableKeys s.strings, k ∈ registry s) :
    (∀ receiver method,
      (newBoundMethod s receiver method).1 ∈ registry (newBoundMethod s receiver method).2) ∧
    (∀ name, (newClass s name).1 ∈ registry (newClass s name).2) ∧
    (∀ name nameBytes n, load s name = some nameBytes → strlen nameBytes = some n →
      ∃ r s1, newBuiltinClass s name = some (r, s1) ∧ r ∈ registry s1) ∧
    (∀ klass name function nameBytes n type next cname methods,
      load s name = some nameBytes → strlen nameBytes = some n →
      s.heap[klass]? = some ⟨type, next, .klass cname methods⟩ →
      ∃ r s1, defineBuiltinMethod s klass name function = some (r, s1) ∧ r ∈ registry s1) ∧
    (∀ function type next arity upvalueCount name chunk,
      s.heap[function]? = some ⟨type, next, .function arity upvalueCount name chunk⟩ →
      ∃ r s1, newClosure s function = some (r, s1) ∧ r ∈ registry s1) ∧
    (newFunction s).1 ∈ registry (newFunction s).2 ∧
    (∀ klass, (newInstance s klass).1 ∈ registry (newInstance s klass).2) ∧
    (∀ function, (newNative s function).1 ∈ registry (newNative s function).2) ∧
    (∀ slot, (newUpvalue s slot).1 ∈ registry (newUpvalue s slot).2) ∧
    (∀ chars n bytes, load s chars = some bytes → n ≤ bytes.length →
      ∃ r s1, copyString s chars n = some (r, s1) ∧ r ∈ registry s1) ∧
    (∀ b n bytes, load s (.heap b) = some bytes → n ≤ bytes.length →
      ∃ r s1, takeString s (.heap b) n = some (r, s1) ∧ r ∈ registry s1) := by
  refine ⟨fun _ _ => (registry_allocateObject s _ _).1,
    fun _ => (registry_allocateObject s _ _).1,
    fun name nameBytes n h1 h2 => newBuiltinClass_registry s hreg name nameBytes n h1 h2,
    fun klass name function nameBytes n type next cname methods h1 h2 h3 =>
      defineBuiltinMethod_registry s hreg klass name function nameBytes n type next cname
        methods h1 h2 h3,
    fun function type next arity upvalueCount name chunk h =>
      newClosure_registry s function type next arity upvalueCount name chunk h,
    (registry_allocateObject s _ _).1,
    fun _ => (registry_allocateObject s _ _).1,
    fun _ => (registry_allocateObject s _ _).1,
    fun _ => (registry_allocateObject s _ _).1,
    fun chars n bytes h1 h2 => ?_,
    fun b n bytes h1 h2 => takeString_registry s hreg b n bytes h1 h2⟩
  obtain ⟨r, s1, h, hr, _⟩ := copyString_registry s hreg chars n bytes h1 h2
  exact ⟨r, s1, h, hr⟩

/-- C5 on the state after `copyString("foo", 3)` in the initial state: copying
`foo` once more returns the String already interned, which is on the registry. -/
theorem registry_complete_witness :
    (∀ k ∈ tableKeys (allocateString (allocate initVM (.chars (bytesOf "foo" ++ [0]))).2
        (.heap 0) 3 2851307223).2.strings,
      k ∈ registry (allocateString (allocate initVM (.chars (bytesOf "foo" ++ [0]))).2
        (.heap 0) 3 2851307223).2) ∧
    ∃ r s1, copyString (allocateString (allocate initVM (.chars (bytesOf "foo" ++ [0]))).2
        (.heap 0) 3 2851307223).2 (.lit (bytesOf "foo")) 3 = some (r, s1) ∧ r ∈ registry s1 :=
  ⟨by decide,
   (registry_complete (allocateString (allocate initVM (.chars (bytesOf "foo" ++ [0]))).2
      (.heap 0) 3 2851307223).2 (by decide)).2.2.2.2.2.2.2.2.2.1
      (.lit (bytesOf "foo")) 3 (bytesOf "foo") rfl (by decide)⟩

/-! ## Textual projection -/

theorem strlen_terminated (name rest : List Byte) (h : (0 : Byte) ∉ name) :
    strlen (name ++ 0 :: rest) = some name.length := by
  induction name with
  | nil => simp [strlen]
  | cons c cs ih =>
    have hc : c ≠ 0 := fun e => h (by simp [e])
    have hcs : (0 : Byte) ∉ cs := fun e => h (List.mem_cons_of_mem c e)
    simp [strlen, hc, ih hcs]

theorem cstring_terminated (name rest : List Byte) (h : (0 : Byte) ∉ name) :
    cstring (name ++ 0 :: rest) = some name := by
  induction name with
  | nil => simp [cstring]
  | cons c cs ih =>
    have hc : c ≠ 0 := fun e => h (by simp [e])
    have hcs : (0 : Byte) ∉ cs := fun e => h (List.mem_cons_of_mem c e)
    simp [cstring, hc, ih hcs]

/-- A buffer of one byte more than the text takes the whole text and the terminator. -/
theorem snprintf_fits (text : List Byte) : snprintf (text.length + 1) text = text ++ [0] := by
  simp [snprintf]

theorem functionToString_named (s : VM) (f : Nat) (type : ObjType) (next : Option Nat)
    (arity upvalueCount nameRef : Nat) (chunk : List Nat)
    (stype : ObjType) (snext : Option Nat) (slength : Nat) (schars : CharPtr) (shash : Nat)
    (name rest : List Byte)
    (hf : s.heap[f]? = some ⟨type, next, .function arity upvalueCount (some nameRef) chunk⟩)
    (hn : s.heap[nameRef]? = some ⟨stype, snext, .string slength schars shash⟩)
    (hl : load s schars = some (name ++ 0 :: rest)) (hz : (0 : Byte) ∉ name) :
    functionToString s f = some (.heap s.mem.length,
      (allocate s (.chars (bytesOf "<fn " ++ name ++ bytesOf ">" ++ [0]))).2) := by
  have hsize : name.length + 6 = (bytesOf "<fn " ++ name ++ bytesOf ">").length + 1 := by
    have h1 : (bytesOf "<fn ").length = 4 := by decide
    have h2 : (bytesOf ">").length = 1 := by decide
    simp only [List.length_append, h1, h2]
    omega
  simp only [functionToString, hf, stringChars, hn, Option.some_bind, hl,
    strlen_terminated name rest hz, cstring_terminated name rest hz, hsize, snprintf_fits,
    allocate]

theorem functionToString_script (s : VM) (f : Nat) (type : ObjType) (next : Option Nat)
    (arity upvalueCount : Nat) (chunk : List Nat)
    (hf : s.heap[f]? = some ⟨type, next, .function arity upvalueCount none chunk⟩) :
    functionToString s f = some (.lit (bytesOf "<script>" ++ [0]), s) := by
  simp only [functionToString, hf]

theorem no_zero_append (a b : List Byte) (ha : (0 : Byte) ∉ a) (hb : (0 : Byte) ∉ b) :
    (0 : Byte) ∉ a ++ b := by
  simp [ha, hb]

/-- C6 as stated fails when the name's storage does not hold the terminator
right after the content: a String with the NUL-free content `add` (length 3)
that `takeString` adopted over the bytes `addx` and a zero byte names a
Function, and `objectToString`, which measures the name with `strlen`, returns
`<fn addx>`, not `<fn add>`. -/
theorem objectToString_function_counterexample :
    stringContent adoptedVM 0 = some (bytesOf "add") ∧
    (0 : Byte) ∉ bytesOf "add" ∧
    adoptedVM.heap[3]? = some ⟨.OBJ_FUNCTION, some 2, .function 0 0 (some 0) []⟩ ∧
    (objectToString adoptedVM (.obj 3)).bind (fun r => textAt r.2 r.1)
      = some (bytesOf "<fn addx>") ∧
    bytesOf "<fn addx>" ≠ bytesOf "<fn " ++ bytesOf "add" ++ bytesOf ">" := by
  decide

/-- C6, amended. Function projection exactness: for a Function whose name is a
String object with NUL-free content `NAME` (its `length` is that of `NAME`)
whose storage holds the terminator right after the content, as `copyString`
stores it, `objectToString` returns a fresh buffer holding exactly `<fn NAME>`
and the terminator, nothing cut off (all `strlen(NAME) + 6` bytes are used);
for a Function without a name it returns the literal `<script>`; for a Closure
and for a BoundMethod it returns what projecting the underlying Function
returns. -/
theorem objectToString_function (s : VM) :
    (∀ f next arity upvalueCount nameRef chunk snext schars shash
        (NAME rest : List Byte),
      s.heap[f]? = some ⟨.OBJ_FUNCTION, next,
        .function arity upvalueCount (some nameRef) chunk⟩ →
      s.heap[nameRef]? = some ⟨.OBJ_STRING, snext, .string NAME.length schars shash⟩ →
      load s schars = some (NAME ++ 0 :: rest) → (0 : Byte) ∉ NAME →
      stringContent s nameRef = some NAME ∧
      ∃ p s1, objectToString s (.obj f) = some (p, s1) ∧
        load s1 p = some (bytesOf "<fn " ++ NAME ++ bytesOf ">" ++ [0]) ∧
        (bytesOf "<fn " ++ NAME ++ bytesOf ">" ++ [0]).length = NAME.length + 6 ∧
        textAt s1 p = some (bytesOf "<fn " ++ NAME ++ bytesOf ">")) ∧
    (∀ f next arity upvalueCount chunk,
      s.heap[f]? = some ⟨.OBJ_FUNCTION, next, .function arity upvalueCount none chunk⟩ →
      objectToString s (.obj f) = some (.lit (bytesOf "<script>" ++ [0]), s) ∧
      textAt s (.lit (bytesOf "<script>" ++ [0])) = some (bytesOf "<script>")) ∧
    (∀ c next f upvalues upvalueCount fnext fdata,
      s.heap[c]? = some ⟨.OBJ_CLOSURE, next, .closure f upvalues upvalueCount⟩ →
      s.heap[f]? = some ⟨.OBJ_FUNCTION, fnext, fdata⟩ →
      objectToString s (.obj c) = objectToString s (.obj f)) ∧
    (∀ b next receiver m mtype mnext f upvalues upvalueCount fnext fdata,
      s.heap[b]? = some ⟨.OBJ_BOUND_METHOD, next, .boundMethod receiver m⟩ →
      s.heap[m]? = some ⟨mtype, mnext, .closure f upvalues upvalueCount⟩ →
      s.heap[f]? = some ⟨.OBJ_FUNCTION, fnext, fdata⟩ →
      objectToString s (.obj b) = objectToString s (.obj f)) := by
  refine ⟨?_, ?_, ?_, ?_⟩
  · intro f next arity upvalueCount nameRef chunk snext schars shash NAME rest
      hf hn hl hz
    have h := functionToString_named s f _ next arity upvalueCount nameRef chunk .OBJ_STRING
      snext NAME.length schars shash NAME rest hf hn hl hz
    have hnz : (0 : Byte) ∉ bytesOf "<fn " ++ NAME ++ bytesOf ">" :=
      no_zero_append _ _ (no_zero_append _ _ (by decide) hz) (by decide)
    have hcont : stringContent s nameRef = some NAME := by
      rw [stringContent_of s nameRef snext NAME.length schars shash _ hn hl (by simp)]
      simp
    refine ⟨hcont, _, _, ?_, load_allocate_new s _, ?_, ?_⟩
    · simp only [objectToString, hf]
      exact h
    · have h1 : (bytesOf "<fn ").length = 4 := by decide
      have h2 : (bytesOf ">").length = 1 := by decide
      simp only [List.length_append, h1, h2, List.length_singleton]
      omega
    · simp only [textAt, load_allocate_new, Option.some_bind]
      exact cstring_terminated _ [] hnz
  · intro f next arity upvalueCount chunk hf
    have htext : cstring (bytesOf "<script>" ++ [0]) = some (bytesOf "<script>") := by decide
    refine ⟨?_, htext⟩
    simp only [objectToString, hf]
    exact functionToString_script s f _ next arity upvalueCount chunk hf
  · intro c next f upvalues upvalueCount fnext fdata hc hf
    simp only [objectToString, hc, hf, closureFunction, Option.some_bind]
  · intro b next receiver m mtype mnext f upvalues upvalueCount fnext fdata hb hm hf
    simp only [objectToString, hb, hm, hf, closureFunction, Option.some_bind]

/-- C6 on the Function named `add`: the projection reads `<fn add>`. -/
theorem objectToString_function_witness :
    ∃ p s1, objectToString addVM (.obj 1) = some (p, s1) ∧
      textAt s1 p = some (bytesOf "<fn add>") :=
  let h := (objectToString_function addVM).1 1 (some 0) 2 0 0 [] none (.heap 0)
    (hashString (bytesOf "add") 3) (bytesOf "add") [] (by decide) (by decide) (by decide)
    (by decide)
  h.2.elim fun p hp => hp.elim fun s1 hs => ⟨p, s1, hs.1, hs.2.2.2⟩

/-- C7 as stated fails when the name's storage does not hold the terminator
right after the content: for an instance of a class whose name is a String
with the NUL-free content `add` (length 3) that `takeString` adopted over the
bytes `addx` and a zero byte, `objectToString`, which measures the name with
`strlen`, returns `<addx instance>`, not `<add instance>`. -/
theorem objectToString_instance_counterexample :
    stringContent adoptedVM 0 = some (bytesOf "add") ∧
    (0 : Byte) ∉ bytesOf "add" ∧
    adoptedVM.heap[1]? = some ⟨.OBJ_CLASS, some 0, .klass 0 []⟩ ∧
    adoptedVM.heap[2]? = some ⟨.OBJ_INSTANCE, some 1, .inst 1 []⟩ ∧
    (objectToString adoptedVM (.obj 2)).bind (fun r => textAt r.2 r.1)
      = some (bytesOf "<addx instance>") ∧
    bytesOf "<addx instance>" ≠ bytesOf "<" ++ bytesOf "add" ++ bytesOf " instance>" := by
  decide

/-- C7, amended. Instance projection exactness: for an Instance whose class
name is a String object with NUL-free content `NAME` (its `length` is that of
`NAME`) whose storage holds the terminator right after the content, as
`copyString` stores it, `objectToString` returns a fresh buffer holding exactly
`<NAME instance>` and the terminator, nothing cut off: the `strlen(NAME) + 12`
bytes hold the `strlen(NAME) + 11` characters and the terminator. -/
theorem objectToString_instance (s : VM) (i : Nat) (next : Option Nat) (klass : Nat)
    (fields : Table) (ktype : ObjType) (knext : Option Nat) (nameRef : Nat) (methods : Table)
    (snext : Option Nat) (schars : CharPtr) (shash : Nat)
    (NAME rest : List Byte)
    (hi : s.heap[i]? = some ⟨.OBJ_INSTANCE, next, .inst klass fields⟩)
    (hk : s.heap[klass]? = some ⟨ktype, knext, .klass nameRef methods⟩)
    (hn : s.heap[nameRef]? = some ⟨.OBJ_STRING, snext, .string NAME.length schars shash⟩)
    (hl : load s schars = some (NAME ++ 0 :: rest)) (hz : (0 : Byte) ∉ NAME) :
    stringContent s nameRef = some NAME ∧
    ∃ p s1, objectToString s (.obj i) = some (p, s1) ∧
      load s1 p = some (bytesOf "<" ++ NAME ++ bytesOf " instance>" ++ [0]) ∧
      (bytesOf "<" ++ NAME ++ bytesOf " instance>").length = NAME.length + 11 ∧
      (bytesOf "<" ++ NAME ++ bytesOf " instance>" ++ [0]).length = NAME.length + 12 ∧
      textAt s1 p = some (bytesOf "<" ++ NAME ++ bytesOf " instance>") := by
  have h1 : (bytesOf "<").length = 1 := by decide
  have h2 : (bytesOf " instance>").length = 10 := by decide
  have hlen : (bytesOf "<" ++ NAME ++ bytesOf " instance>").length = NAME.length + 11 := by
    simp only [List.length_append, h1, h2]
    omega
  have hsize : NAME.length + 12 = (bytesOf "<" ++ NAME ++ bytesOf " instance>").length + 1 := by
    omega
  have hnz : (0 : Byte) ∉ bytesOf "<" ++ NAME ++ bytesOf " instance>" :=
    no_zero_append _ _ (no_zero_append _ _ (by decide) hz) (by decide)
  have hcont : stringContent s nameRef = some NAME := by
    rw [stringContent_of s nameRef snext NAME.length schars shash _ hn hl (by simp)]
    simp
  refine ⟨hcont, .heap s.mem.length,
    (allocate s (.chars (bytesOf "<" ++ NAME ++ bytesOf " instance>" ++ [0]))).2,
    ?_, load_allocate_new s _, hlen, ?_, ?_⟩
  · simp only [objectToString, hi, instanceClass, className, hk, stringChars, hn,
      Option.some_bind, hl, strlen_terminated NAME rest hz, cstring_terminated NAME rest hz,
      hsize, snprintf_fits, allocate]
  · simp only [List.length_append, List.length_singleton] at hlen ⊢
    omega
  · have hl2 : load (allocate s (.chars (bytesOf "<" ++ NAME ++ bytesOf " instance>" ++ [0]))).2
        (.heap s.mem.length) = some (bytesOf "<" ++ NAME ++ bytesOf " instance>" ++ [0]) :=
      load_allocate_new s _
    simp only [textAt, hl2, Option.some_bind]
    exact cstring_terminated _ [] hnz

/-- C7 on an instance of the class `Point`: the projection reads `<Point instance>`. -/
theorem objectToString_instance_witness :
    ∃ p s1, objectToString (instanceVM (bytesOf "Point")) (.obj 2) = some (p, s1) ∧
      textAt s1 p = some (bytesOf "<Point instance>") :=
  let h := objectToString_instance (instanceVM (bytesOf "Point")) 2 (some 1) 1 [] .OBJ_CLASS
    (some 0) 0 [] none (.heap 0) (hashString (bytesOf "Point") 5)
    (bytesOf "Point") [] (by decide) (by decide) (by decide) (by decide) (by decide)
  h.2.elim fun p hp => hp.elim fun s1 hs => ⟨p, s1, hs.1, hs.2.2.2.2⟩

/-- C8, at an instance of the class `Point`: `printObject` writes
`Point instance`, without the angle brackets of the text `<Point instance>`
that `objectToString` returns for the same value. -/
theorem printObject_instance_differs :
    (printObject (instanceVM (bytesOf "Point")) (.obj 2)).map (fun s => s.out)
      = some (bytesOf "Point instance") ∧
    (objectToString (instanceVM (bytesOf "Point")) (.obj 2)).bind (fun r => textAt r.2 r.1)
      = some (bytesOf "<Point instance>") ∧
    bytesOf "Point instance" ≠ bytesOf "<Point instance>" := by
  decide

/-- C9, at the builtin class `Object` and its native method `toString` as
`createObjectType` builds them: the switch of `objectToString` has no case for
either tag, so no value is returned, and `printObject` writes nothing. -/
theorem projection_missing_tags :
    (objectTypeVM.heap[1]?).map (fun o => o.type) = some .OBJ_BUILTIN_CLASS ∧
    objectToString objectTypeVM (.obj 1) = none ∧
    printObject objectTypeVM (.obj 1) = some objectTypeVM ∧
    (objectTypeVM.heap[3]?).map (fun o => o.type) = some .OBJ_NATIVE_METHOD ∧
    objectToString objectTypeVM (.obj 3) = none ∧
    printObject objectTypeVM (.obj 3) = some objectTypeVM ∧
    objectTypeVM.out = [] := by
  decide

/-! ## libc/baseobject.c: the builtin `toString` -/

/-- C10 as stated fails when the class name holds a zero byte: for a class
whose interned name has the three bytes `a`, NUL, `b`, `builtinObjectToString`
with no arguments measures the name with `strlen` and returns a new String
with content `a` (address 3), not the name (address 0). -/
theorem builtinObjectToString_nul_counterexample :
    stringContent (instanceVM [97, 0, 98]) 0 = some [97, 0, 98] ∧
    0 ∈ tableKeys (instanceVM [97, 0, 98]).strings ∧
    (instanceClass (instanceVM [97, 0, 98]) 2).bind (className (instanceVM [97, 0, 98]))
      = some 0 ∧
    (builtinObjectToString (instanceVM [97, 0, 98]) 2 0).map (fun r => r.1)
      = some (.obj 3) ∧
    (builtinObjectToString (instanceVM [97, 0, 98]) 2 0).bind
      (fun r => stringContent r.2 3) = some [97] := by
  decide

/-- C10, amended. With one or more arguments `builtinObjectToString` returns
nil and leaves the state as it was, whatever the receiver. With no argument,
on an instance whose class name is an interned String with NUL-free content
`NAME` (stored with its terminator), in a state whose intern table holds sound
keys with pairwise different contents, it returns the class's own name
reference and leaves the state as it was. -/
theorem builtinObjectToString_arity (s : VM) :
    (∀ (object : Nat) (argCount : Int), argCount ≥ 1 →
      builtinObjectToString s object argCount = some (.nil, s)) ∧
    (∀ (object : Nat) (itype : ObjType) (inext : Option Nat) (klass : Nat) (fields : Table)
        (ktype : ObjType) (knext : Option Nat) (nameRef : Nat) (methods : Table)
        (snext : Option Nat) (chars : CharPtr) (hash : Nat) (NAME rest : List Byte),
      (∀ k ∈ tableKeys s.strings, KeyOk s k) →
      (∀ k1 ∈ tableKeys s.strings, ∀ k2 ∈ tableKeys s.strings, ∀ c,
        stringContent s k1 = some c → stringContent s k2 = some c → k1 = k2) →
      s.heap[object]? = some ⟨itype, inext, .inst klass fields⟩ →
      s.heap[klass]? = some ⟨ktype, knext, .klass nameRef methods⟩ →
      nameRef ∈ tableKeys s.strings →
      s.heap[nameRef]? = some ⟨.OBJ_STRING, snext, .string NAME.length chars hash⟩ →
      load s chars = some (NAME ++ 0 :: rest) → (0 : Byte) ∉ NAME →
      builtinObjectToString s object 0 = some (.obj nameRef, s) ∧
      stringContent s nameRef = some NAME) := by
  constructor
  · intro object argCount h
    have : argCount > 0 := by omega
    simp [builtinObjectToString, this]
  · intro object itype inext klass fields ktype knext nameRef methods snext chars hash NAME rest
      hkeys huniq hi hk hmem hn hl hz
    have hlen : NAME.length ≤ (NAME ++ 0 :: rest).length := by simp
    have htake : (NAME ++ 0 :: rest).take NAME.length = NAME := by simp
    have hcont : stringContent s nameRef = some NAME := by
      rw [stringContent_of s nameRef snext NAME.length chars hash _ hn hl hlen, htake]
    have hfind : tableFindString s s.strings (NAME ++ 0 :: rest) NAME.length
        (hashString (NAME ++ 0 :: rest) NAME.length) = some nameRef := by
      cases hf : tableFindString s s.strings (NAME ++ 0 :: rest) NAME.length
          (hashString (NAME ++ 0 :: rest) NAME.length) with
      | none =>
        exact absurd (by rw [htake]; exact hcont)
          (no_key_of_miss s hkeys (NAME ++ 0 :: rest) NAME.length hlen hf nameRef hmem)
      | some k =>
        obtain ⟨hk1, hk2⟩ := key_of_hit s hkeys (NAME ++ 0 :: rest) NAME.length k hlen hf
        rw [htake] at hk2
        rw [huniq k hk1 nameRef hmem NAME hk2 hcont]
    have hcopy := copyString_hit s chars NAME.length (NAME ++ 0 :: rest) nameRef hl hlen hfind
    refine ⟨?_, hcont⟩
    simp [builtinObjectToString, instanceClass, className, stringChars, hi, hk, hn, hl,
      strlen_terminated NAME rest hz, hcopy]

/-- C10 on an instance of the class `Point`: one argument gives nil, none gives
the name String at address 0, whose content is `Point`. -/
theorem builtinObjectToString_arity_witness :
    builtinObjectToString (instanceVM (bytesOf "Point")) 2 1
      = some (.nil, instanceVM (bytesOf "Point")) ∧
    builtinObjectToString (instanceVM (bytesOf "Point")) 2 0
      = some (.obj 0, instanceVM (bytesOf "Point")) ∧
    stringContent (instanceVM (bytesOf "Point")) 0 = some (bytesOf "Point") :=
  have hkeys : tableKeys (instanceVM (bytesOf "Point")).strings = [0] := by decide
  have h := (builtinObjectToString_arity (instanceVM (bytesOf "Point"))).2 2 .OBJ_INSTANCE
    (some 1) 1 [] .OBJ_CLASS (some 0) 0 [] none (.heap 0) (hashString (bytesOf "Point") 5)
    (bytesOf "Point") []
    (by
      intro k hk
      rw [hkeys] at hk
      have hk0 : k = 0 := by simpa using hk
      subst hk0
      exact ⟨none, 5, .heap 0, bytesOf "Point" ++ [0], by decide, by decide, by decide⟩)
    (by
      intro k1 hk1 k2 hk2 c _ _
      rw [hkeys] at hk1 hk2
      have h1 : k1 = 0 := by simpa using hk1
      have h2 : k2 = 0 := by simpa using hk2
      rw [h1, h2])
    (by decide) (by decide) (by decide) (by decide) (by decide) (by decide)
  ⟨(builtinObjectToString_arity (instanceVM (bytesOf "Point"))).1 2 1 (by decide), h.1, h.2⟩

/-! ## Closures and upvalues -/

theorem replicate_append_cons {α : Type} (i : Nat) (a : α) (l : List α) :
    List.replicate i a ++ a :: l = a :: (List.replicate i a ++ l) := by
  induction i with
  | zero => rfl
  | succ i ih => simp [List.replicate_succ, ih]

theorem clearUpvalues_replicate (n i : Nat) (x : Option Nat) :
    clearUpvalues (List.replicate i none ++ List.replicate n x) n i
      = List.replicate (i + n) none := by
  induction n generalizing i with
  | zero => simp [clearUpvalues]
  | succ n ih =>
    have hset : (List.replicate i (none : Option Nat) ++ List.replicate (n + 1) x).set i none
        = List.replicate (i + 1) none ++ List.replicate n x := by
      rw [List.set_append_right _ _ (by simp)]
      simp [List.replicate_succ, replicate_append_cons]
    rw [clearUpvalues, hset, ih (i + 1)]
    congr 1
    omega

/-- C11. `newClosure(function)`: for a Function with `upvalueCount = k` the call
returns a new object tagged Closure whose `function` is the given one, whose
`upvalueCount` is `k`, and whose upvalue array has exactly `k` slots, each of
them empty; the Function object itself is as it was. -/
theorem newClosure_spec (s : VM) (f : Nat) (next : Option Nat) (arity k : Nat)
    (name : Option Nat) (chunk : List Nat)
    (hf : s.heap[f]? = some ⟨.OBJ_FUNCTION, next, .function arity k name chunk⟩) :
    ∃ c u s1, newClosure s f = some (c, s1) ∧
      s1.heap[c]? = some ⟨.OBJ_CLOSURE, s.objects, .closure f u k⟩ ∧
      s1.mem[u]? = some (some (.upvalues (List.replicate k none))) ∧
      (List.replicate k (none : Option Nat)).length = k ∧
      s1.heap[f]? = some ⟨.OBJ_FUNCTION, next, .function arity k name chunk⟩ := by
  have hclear : clearUpvalues (List.replicate k (some 0)) k 0 = List.replicate k none := by
    have h := clearUpvalues_replicate k 0 (some 0)
    simpa using h
  refine ⟨s.heap.length, s.mem.length,
    (allocateObject (allocate s (.upvalues (List.replicate k none))).2 .OBJ_CLOSURE
      (.closure f s.mem.length k)).2, ?_, ?_, ?_, by simp, ?_⟩
  · simp only [newClosure, hf, hclear, allocate, allocateObject]
  · simp [allocateObject, allocate]
  · simp [allocateObject, allocate]
  · exact (Grows_allocateObject _ _ _).1 _ _ hf

/-- C11 on a Function capturing two variables: the closure gets two empty slots. -/
theorem newClosure_spec_witness :
    ∃ c u s1, newClosure captureVM 0 = some (c, s1) ∧
      s1.heap[c]? = some ⟨.OBJ_CLOSURE, some 0, .closure 0 u 2⟩ ∧
      s1.mem[u]? = some (some (.upvalues [none, none])) :=
  (newClosure_spec captureVM 0 none 1 2 none [] (by decide)).elim fun c hc =>
    hc.elim fun u hu => hu.elim fun s1 h => ⟨c, u, s1, h.1, h.2.1, h.2.2.1⟩

/-! ## Tables -/

theorem find?_update_self (t : Table) (key : Nat) (value : Value)
    (h : t.any (fun e => e.1 == key) = true) :
    ((t.map fun e => if e.1 == key then (key, value) else e).find?
      (fun e => e.1 == key)).map Prod.snd = some value := by
  induction t with
  | nil => simp at h
  | cons e t ih =>
    rw [List.map_cons, List.find?_cons]
    by_cases he : e.1 = key
    · have h1 : (if (e.1 == key) = true then (key, value) else e) = (key, value) := by
        simp [he]
      rw [h1]
      simp
    · have h1 : (if (e.1 == key) = true then (key, value) else e) = e := by simp [he]
      have h2 : (e.1 == key) = false := by simp [he]
      have ht : t.any (fun e => e.1 == key) = true := by
        rw [List.any_cons, h2, Bool.false_or] at h
        exact h
      rw [h1, h2]
      exact ih ht

theorem find?_update_other (t : Table) (key other : Nat) (value : Value)
    (hne : key ≠ other) :
    (t.map fun e => if e.1 == key then (key, value) else e).find? (fun e => e.1 == other)
      = t.find? (fun e => e.1 == other) := by
  induction t with
  | nil => rfl
  | cons e t ih =>
    rw [List.map_cons, List.find?_cons, List.find?_cons]
    by_cases he : e.1 = key
    · have h1 : (if (e.1 == key) = true then (key, value) else e) = (key, value) := by
        simp [he]
      have h2 : (key == other) = false := by simp [hne]
      have h3 : (e.1 == other) = false := by rw [he]; exact h2
      rw [h1, h2, h3]
      exact ih
    · have h1 : (if (e.1 == key) = true then (key, value) else e) = e := by simp [he]
      rw [h1, ih]

theorem tableGet_tableSet_self (t : Table) (key : Nat) (value : Value) :
    tableGet (tableSet t key value).2 key = some value := by
  unfold tableSet
  split
  · rename_i h
    exact find?_update_self t key value h
  · simp [tableGet, List.find?]

theorem tableGet_tableSet_other (t : Table) (key other : Nat) (value : Value)
    (hne : other ≠ key) : tableGet (tableSet t key value).2 other = tableGet t other := by
  have hne2 : key ≠ other := fun e => hne e.symm
  unfold tableSet
  split
  · simp only [tableGet]
    rw [find?_update_other t key other value hne2]
  · have h2 : (key == other) = false := by simp [hne2]
    simp only [tableGet, List.find?_cons, h2]

theorem tableGet_initTable (key : Nat) : tableGet initTable key = none := rfl

/-- Lookups by content read only the keys' objects and the readable bytes. -/
theorem tableFindString_congr_state (s1 s2 : VM) (t : Table) (b : List Byte) (n hash : Nat)
    (hh : ∀ k ∈ tableKeys t, s2.heap[k]? = s1.heap[k]?)
    (hl : ∀ p, load s2 p = load s1 p) :
    tableFindString s2 t b n hash = tableFindString s1 t b n hash := by
  unfold tableFindString
  congr 1
  apply find?_congr_mem
  intro e he
  have h1 := hh e.1 (List.mem_map.mpr ⟨e, he, rfl⟩)
  simp only [keyMatches, h1, hl]

theorem cstring_eq_take (bytes : List Byte) (n : Nat) (h : strlen bytes = some n) :
    cstring bytes = some (bytes.take n) := by
  induction bytes generalizing n with
  | nil => simp [strlen] at h
  | cons c rest ih =>
    by_cases hc : c = 0
    · simp only [strlen, hc, if_true, Option.some.injEq] at h
      subst h
      simp [cstring, hc]
    · simp only [strlen, hc, if_false, Option.map_eq_some'] at h
      obtain ⟨m, hm, rfl⟩ := h
      simp [cstring, hc, ih m hm]

/-- Under the table contract a key the lookup returns is a String whose content
is the content looked for. -/
theorem content_of_find (s : VM) (hwf : InternWF s) (b : List Byte) (n hash r : Nat)
    (hfind : tableFindString s s.strings b n hash = some r) :
    r ∈ tableKeys s.strings ∧ stringContent s r = some (b.take n) := by
  obtain ⟨hk, hm⟩ := tableFindString_some s s.strings b n hash r hfind
  obtain ⟨next, length, chars, khash, kbytes, h1, h2, h3⟩ := hwf r hk
  refine ⟨hk, ?_⟩
  simp only [keyMatches, h1, h2, Bool.and_eq_true, beq_iff_eq, decide_eq_true_eq] at hm
  obtain ⟨⟨⟨rfl, _⟩, _⟩, htake⟩ := hm
  rw [stringContent_of s r next length chars khash kbytes h1 h2 h3, htake]

/-! ## Builtin classes and their methods -/

theorem load_heap_objects (s : VM) (h : List Obj) (o : Option Nat) (p : CharPtr) :
    load { s with heap := h, objects := o } p = load s p := by
  cases p <;> rfl

theorem getElem?_set_at {α : Type} (l : List α) (i : Nat) (a : α) (h : i < l.length) :
    (l.set i a)[i]? = some a := by
  rw [List.getElem?_set]
  simp [h]

/-- Keys of the intern table are untouched when a class object is rewritten
and a new object is appended. -/
theorem key_heap_after_set (s : VM) (hwf : InternWF s) (klass : Nat) (type : ObjType)
    (next : Option Nat) (cname : Nat) (methods : Table) (added updated : Obj)
    (hk : s.heap[klass]? = some ⟨type, next, .klass cname methods⟩)
    (k : Nat) (hkey : k ∈ tableKeys s.strings) :
    ((s.heap ++ [added]).set klass updated)[k]? = s.heap[k]? := by
  obtain ⟨knext, length, chars, hash, bytes, h1, _, _⟩ := hwf k hkey
  have hne : klass ≠ k := by
    intro e
    rw [e, h1] at hk
    simp at hk
  have hlt : k < s.heap.length := InternWF_key_lt s hwf k hkey
  rw [List.getElem?_set_ne hne, List.getElem?_append_left hlt]

/-- C12. `defineBuiltinMethod(klass, name, function)` on a class object and a
readable C string, in a state whose intern table satisfies the table contract:
afterwards the interned String for `name` (the reference `copyString` returns
for it, whose content is the text of `name`) is mapped, in the class's method
mapping, to a new object tagged NativeMethod that wraps exactly `function`;
every other key of the mapping maps to what it mapped to before. -/
theorem defineBuiltinMethod_spec (s : VM) (klass : Nat) (name : CharPtr) (function : Nat)
    (nameBytes : List Byte) (n : Nat) (type : ObjType) (next : Option Nat) (cname : Nat)
    (methods : Table)
    (hwf : InternWF s) (hload : load s name = some nameBytes)
    (hstrlen : strlen nameBytes = some n)
    (hk : s.heap[klass]? = some ⟨type, next, .klass cname methods⟩) :
    ∃ nm s1 str methods1 nmnext,
      defineBuiltinMethod s klass name function = some (nm, s1) ∧
      copyString s1 name n = some (str, s1) ∧
      stringContent s1 str = cstring nameBytes ∧
      s1.heap[klass]? = some ⟨type, next, .klass cname methods1⟩ ∧
      tableGet methods1 str = some (.obj nm) ∧
      s1.heap[nm]? = some ⟨.OBJ_NATIVE_METHOD, nmnext, .nativeMethod function⟩ ∧
      ∀ k, k ≠ str → tableGet methods1 k = tableGet methods k := by
  have hn : n ≤ nameBytes.length := strlen_le _ _ hstrlen
  obtain ⟨str, sc, hcopy, hwfc, hg, hfind⟩ := copyString_spec s hwf name n nameBytes hload hn
  have hkc := hg.1 _ _ hk
  have hklt : klass < sc.heap.length := by
    by_contra hc
    have : sc.heap[klass]? = none := List.getElem?_eq_none (by omega)
    simp [this] at hkc
  have heq := defineBuiltinMethod_eq s klass name function nameBytes n str sc type next cname
    methods hload hstrlen hcopy hkc
  have hkeys : ∀ k ∈ tableKeys sc.strings,
      ((sc.heap ++ [(⟨.OBJ_NATIVE_METHOD, sc.objects, .nativeMethod function⟩ : Obj)]).set klass
        (⟨type, next, .klass cname (tableSet methods str (.obj sc.heap.length)).2⟩ : Obj))[k]?
        = sc.heap[k]? :=
    fun k hkey => key_heap_after_set sc hwfc klass type next cname methods _ _ hkc k hkey
  have hfind2 := (tableFindString_congr_state sc _ sc.strings nameBytes n
    (hashString nameBytes n) hkeys (fun p => load_heap_objects sc _ (some sc.heap.length) p)).trans
    hfind
  have hload2 := (load_heap_objects sc
    ((sc.heap ++ [(⟨.OBJ_NATIVE_METHOD, sc.objects, .nativeMethod function⟩ : Obj)]).set klass
      (⟨type, next, .klass cname (tableSet methods str (.obj sc.heap.length)).2⟩ : Obj))
    (some sc.heap.length) name).trans (hg.2 _ _ hload)
  obtain ⟨hstrkey, hcont⟩ := content_of_find sc hwfc nameBytes n _ str hfind
  refine ⟨sc.heap.length, _, str, (tableSet methods str (.obj sc.heap.length)).2, sc.objects,
    heq, copyString_hit _ name n nameBytes str hload2 hn hfind2, ?_, ?_,
    tableGet_tableSet_self _ _ _, ?_, fun k hne => tableGet_tableSet_other _ _ _ _ hne⟩
  · rw [cstring_eq_take nameBytes n hstrlen, ← hcont]
    simp only [stringContent, hkeys str hstrkey, load_heap_objects]
  · exact getElem?_set_at _ _ _ (by simp; omega)
  · have hne : klass ≠ sc.heap.length := by omega
    simp [List.getElem?_set_ne hne]

theorem InternWF_of_check (s : VM) (h : internWFCheck s = true) : InternWF s := by
  intro k hk
  have hk2 := List.all_eq_true.mp h k hk
  cases ho : s.heap[k]? with
  | none => simp [ho] at hk2
  | some o =>
    obtain ⟨ty, nx, d⟩ := o
    cases d with
    | string length chars hash =>
      have hty : ty = .OBJ_STRING := by
        cases ty <;> first | rfl | simp [ho] at hk2
      subst hty
      simp only [ho] at hk2
      cases hl : load s chars with
      | none => simp [hl] at hk2
      | some bytes =>
        simp only [hl, decide_eq_true_eq] at hk2
        exact ⟨nx, length, chars, hash, bytes, rfl, hl, hk2⟩
    | _ => cases ty <;> simp [ho] at hk2

/-- C12 on the builtin class `Object`: defining `toString` maps the interned
String `toString` to a NativeMethod wrapping the given function. -/
theorem defineBuiltinMethod_spec_witness :
    ∃ nm s1 str methods1,
      defineBuiltinMethod objectClassVM 1 (.lit (bytesOf "toString" ++ [0]))
        builtinObjectToStringFn = some (nm, s1) ∧
      stringContent s1 str = some (bytesOf "toString") ∧
      classMethods s1 1 = some methods1 ∧
      tableGet methods1 str = some (.obj nm) ∧
      s1.heap[nm]? = some ⟨.OBJ_NATIVE_METHOD, some 2, .nativeMethod builtinObjectToStringFn⟩ :=
  (defineBuiltinMethod_spec objectClassVM 1 (.lit (bytesOf "toString" ++ [0]))
    builtinObjectToStringFn (bytesOf "toString" ++ [0]) 8 .OBJ_BUILTIN_CLASS (some 0) 0 []
    (InternWF_of_check _ (by decide)) rfl (by decide) (by decide)).elim fun nm h1 =>
    h1.elim fun s1 h2 => h2.elim fun str h3 => h3.elim fun methods1 h4 => h4.elim fun nmnext h =>
      ⟨nm, s1, str, methods1, h.1,
        h.2.2.1.trans (by decide),
        by simp only [classMethods, h.2.2.2.1],
        h.2.2.2.2.1,
        by
          have hstate := h.1
          have hobj := h.2.2.2.2.2.1
          have hd : defineBuiltinMethod objectClassVM 1 (.lit (bytesOf "toString" ++ [0]))
              builtinObjectToStringFn = some (3, objectTypeVM) := by decide
          rw [hd] at hstate
          obtain ⟨rfl, rfl⟩ : 3 = nm ∧ objectTypeVM = s1 := by simpa using hstate
          decide⟩

/-! ## Hits and misses of the interner -/

/-- In a table of sound keys with pairwise different contents, the lookup of
the content of a key returns that key. -/
theorem find_of_interned (s : VM) (hkeys : ∀ k ∈ tableKeys s.strings, KeyOk s k)
    (huniq : ∀ k1 ∈ tableKeys s.strings, ∀ k2 ∈ tableKeys s.strings, ∀ c,
      stringContent s k1 = some c → stringContent s k2 = some c → k1 = k2)
    (b : List Byte) (n r : Nat) (hn : n ≤ b.length) (hr : r ∈ tableKeys s.strings)
    (hc : stringContent s r = some (b.take n)) :
    tableFindString s s.strings b n (hashString b n) = some r := by
  cases hf : tableFindString s s.strings b n (hashString b n) with
  | none => exact absurd hc (no_key_of_miss s hkeys b n hn hf r hr)
  | some k =>
    obtain ⟨hk1, hk2⟩ := key_of_hit s hkeys b n k hn hf
    rw [huniq k hk1 r hr _ hk2 hc]

/-- The state after `copyString("foo", 3)` satisfies the interner invariant. -/
theorem InternInv_fooVM : InternInv fooVM := by
  obtain ⟨s, hs, hinv⟩ := internRun_spec [.copy (bytesOf "foo")] initVM InternInv_init
  have h : internRun initVM [.copy (bytesOf "foo")] = some fooVM := by decide
  rw [h] at hs
  have : fooVM = s := by simpa using hs
  rw [this]
  exact hinv

/-- C13. `copyString` allocates nothing on a hit: when the bytes are already
interned (a key `r` of the intern table has that content, the table holding
sound keys with pairwise different contents), `copyString` returns `r` and the
state it leaves is the state it found, so the registry and its head
`vm.objects`, the intern table and the value stack are exactly as they were. -/
theorem copyString_hit_frame (s : VM) (chars : CharPtr) (n : Nat) (bytes : List Byte)
    (r : Nat)
    (hkeys : ∀ k ∈ tableKeys s.strings, KeyOk s k)
    (huniq : ∀ k1 ∈ tableKeys s.strings, ∀ k2 ∈ tableKeys s.strings, ∀ c,
      stringContent s k1 = some c → stringContent s k2 = some c → k1 = k2)
    (hload : load s chars = some bytes) (hlen : n ≤ bytes.length)
    (hr : r ∈ tableKeys s.strings) (hc : stringContent s r = some (bytes.take n)) :
    ∃ s1, copyString s chars n = some (r, s1) ∧ s1 = s ∧
      s1.objects = s.objects ∧ registry s1 = registry s ∧ s1.heap = s.heap ∧
      s1.mem = s.mem ∧ s1.strings = s.strings ∧ s1.stack = s.stack :=
  ⟨s, copyString_hit s chars n bytes r hload hlen
      (find_of_interned s hkeys huniq bytes n r hlen hr hc),
    rfl, rfl, rfl, rfl, rfl, rfl, rfl⟩

/-- C13 on `foo`, already interned at address 0: copying it again changes nothing. -/
theorem copyString_hit_frame_witness :
    ∃ s1, copyString fooVM (.lit (bytesOf "foo")) 3 = some (0, s1) ∧ s1 = fooVM :=
  (copyString_hit_frame fooVM (.lit (bytesOf "foo")) 3 (bytesOf "foo") 0
    InternInv_fooVM.keysOk InternInv_fooVM.unique rfl (by decide) (by decide)
    (by decide)).elim fun s1 h => ⟨s1, h.1, h.2.1⟩

/-- C14. `takeString` adopts on a miss: for readable allocated storage whose
first `n` bytes are the content of no key yet (table contract assumed),
`takeString` returns a new String object whose `chars` is the caller's storage
itself and whose `length` is `n`; raw storage is as before (nothing copied,
nothing released); the new String is a key of the intern table, and a later
`copyString` of the same content returns it. -/
theorem takeString_adopts (s : VM) (b n : Nat) (bytes : List Byte)
    (hwf : InternWF s) (hload : load s (.heap b) = some bytes) (hlen : n ≤ bytes.length)
    (hnew : ∀ k ∈ tableKeys s.strings, stringContent s k ≠ some (bytes.take n)) :
    ∃ r s1, takeString s (.heap b) n = some (r, s1) ∧
      s.heap[r]? = none ∧
      s1.heap[r]? = some ⟨.OBJ_STRING, s.objects, .string n (.heap b) (hashString bytes n)⟩ ∧
      s1.mem = s.mem ∧ s1.frees = s.frees ∧
      r ∈ tableKeys s1.strings ∧
      ∀ chars2 bytes2, load s1 chars2 = some bytes2 → n ≤ bytes2.length →
        bytes2.take n = bytes.take n → copyString s1 chars2 n = some (r, s1) := by
  have hfind : tableFindString s s.strings bytes n (hashString bytes n) = none := by
    cases hf : tableFindString s s.strings bytes n (hashString bytes n) with
    | none => rfl
    | some k =>
      obtain ⟨hk, hc⟩ := content_of_find s hwf bytes n _ k hf
      exact absurd hc (hnew k hk)
  have hfresh : s.heap.length ∉ tableKeys s.strings := fun hc =>
    Nat.lt_irrefl _ (InternWF_key_lt s hwf _ hc)
  have hstr : (allocateString s (.heap b) n (hashString bytes n)).2.strings
      = (s.heap.length, Value.nil) :: s.strings := by
    rw [allocateString_eq]
    exact tableSet_absent s.strings s.heap.length .nil hfresh
  refine ⟨s.heap.length, (allocateString s (.heap b) n (hashString bytes n)).2,
    ?_, List.getElem?_eq_none (Nat.le_refl _), ?_, ?_, ?_, ?_, ?_⟩
  · simp only [takeString, hload, hlen, if_true, hfind]
    rw [allocateString_eq]
  · rw [allocateString_eq]
    simp
  · rw [allocateString_eq]
  · rw [allocateString_eq]
  · rw [hstr]
    simp [tableKeys]
  · intro chars2 bytes2 hl2 hn2 htake
    have hm := keyMatches_new s (.heap b) n bytes2 bytes hload hlen htake.symm
    rw [← hashString_take bytes2 bytes n htake] at hstr
    have hf2 := tableFindString_head (allocateString s (.heap b) n (hashString bytes2 n)).2
      s.strings bytes2 n (hashString bytes2 n) s.heap.length .nil hm
    rw [← hstr] at hf2
    rw [hashString_take bytes2 bytes n htake] at hf2
    have hcopy := copyString_hit _ chars2 n bytes2 s.heap.length hl2 hn2
    rw [hashString_take bytes2 bytes n htake] at hcopy
    exact hcopy hf2

/-- C14 on a buffer holding `bar` handed over while only `foo` is interned. -/
theorem takeString_adopts_witness :
    ∃ r s1, takeString (allocate fooVM (.chars (bytesOf "bar" ++ [0]))).2 (.heap 1) 3
        = some (r, s1) ∧
      s1.heap[r]? = some ⟨.OBJ_STRING, some 0, .string 3 (.heap 1)
        (hashString (bytesOf "bar" ++ [0]) 3)⟩ ∧
      copyString s1 (.lit (bytesOf "bar")) 3 = some (r, s1) :=
  (takeString_adopts (allocate fooVM (.chars (bytesOf "bar" ++ [0]))).2 1 3
    (bytesOf "bar" ++ [0]) (InternWF_of_check _ (by decide)) (by decide) (by decide)
    (by
      intro k hk
      have hk0 : k = 0 := by
        have hkeys : tableKeys (allocate fooVM (.chars (bytesOf "bar" ++ [0]))).2.strings
            = [0] := by decide
        rw [hkeys] at hk
        simpa using hk
      subst hk0
      decide)).elim fun r h1 => h1.elim fun s1 h =>
      ⟨r, s1, h.1, h.2.2.1, h.2.2.2.2.2.2 (.lit (bytesOf "bar")) (bytesOf "bar") rfl
        (by decide) (by decide)⟩

/-! ## Classes, instances and upvalues -/

theorem allocateObject_new (s : VM) (type : ObjType) (data : ObjData) :
    (allocateObject s type data).2.heap[(allocateObject s type data).1]?
      = some ⟨type, s.objects, data⟩ := by
  simp [allocateObject]

theorem allocateObject_old (s : VM) (type : ObjType) (data : ObjData) (r : Nat) (o : Obj)
    (h : s.heap[r]? = some o) : (allocateObject s type data).2.heap[r]? = some o :=
  (Grows_allocateObject s type data).1 r o h

/-- C15. Fresh classes and instances start empty: `newClass(name)` returns an
object tagged Class with that name whose method mapping misses on every key;
`newInstance(c)` returns an object tagged Instance with `klass = c` whose field
mapping misses on every key, and the class object `c` (its method mapping in
particular) is as it was before the call. -/
theorem newClass_newInstance_empty (s : VM) :
    (∀ name, ∃ methods,
      (newClass s name).2.heap[(newClass s name).1]?
        = some ⟨.OBJ_CLASS, s.objects, .klass name methods⟩ ∧
      ∀ key, tableGet methods key = none) ∧
    (∀ c, ∃ fields,
      (newInstance s c).2.heap[(newInstance s c).1]?
        = some ⟨.OBJ_INSTANCE, s.objects, .inst c fields⟩ ∧
      (∀ key, tableGet fields key = none) ∧
      (∀ o, s.heap[c]? = some o → (newInstance s c).2.heap[c]? = some o) ∧
      (∀ methods, classMethods s c = some methods →
        classMethods (newInstance s c).2 c = some methods)) := by
  constructor
  · intro name
    exact ⟨initTable, allocateObject_new s _ _, fun _ => rfl⟩
  · intro c
    refine ⟨initTable, allocateObject_new s _ _, fun _ => rfl,
      fun o h => allocateObject_old s _ _ c o h, ?_⟩
    intro methods hm
    cases ho : s.heap[c]? with
    | none => simp [classMethods, ho] at hm
    | some o =>
      have h2 := allocateObject_old s .OBJ_INSTANCE (.inst c initTable) c o ho
      simp only [classMethods, ho] at hm
      simp only [classMethods, newInstance, h2]
      exact hm

/-- C15 on the class `Object` with its method `toString`: a new instance has no
fields and the class keeps its one method. -/
theorem newClass_newInstance_empty_witness :
    classMethods objectTypeVM 1 = some [(2, .obj 3)] ∧
    classMethods (newInstance objectTypeVM 1).2 1 = some [(2, .obj 3)] ∧
    instanceFields (newInstance objectTypeVM 1).2 (newInstance objectTypeVM 1).1 = some [] :=
  ⟨by decide,
   ((newClass_newInstance_empty objectTypeVM).2 1).elim fun _ h =>
     h.2.2.2 [(2, .obj 3)] (by decide),
   by decide⟩

/-- C17. `newUpvalue(slot)` returns a new object tagged Upvalue whose
`location` is the given slot, whose `closed` storage is nil and whose `next`
in the open-upvalue list is null; the stack is untouched, so reading through
the upvalue gives the value the slot holds. -/
theorem newUpvalue_spec (s : VM) (slot : Nat) :
    s.heap[(newUpvalue s slot).1]? = none ∧
    (newUpvalue s slot).2.heap[(newUpvalue s slot).1]?
      = some ⟨.OBJ_UPVALUE, s.objects, .upvalue slot .nil none⟩ ∧
    (newUpvalue s slot).2.stack = s.stack ∧
    readUpvalue (newUpvalue s slot).2 (newUpvalue s slot).1 = readSlot s slot := by
  refine ⟨List.getElem?_eq_none (Nat.le_refl _), allocateObject_new s _ _, rfl, ?_⟩
  have h := allocateObject_new s .OBJ_UPVALUE (.upvalue slot .nil none)
  simp only [readUpvalue, newUpvalue, h]
  rfl

/-! ## Type tags of constructed objects -/

theorem tagOf_key (s : VM) (hwf : InternWF s) (k : Nat) (hk : k ∈ tableKeys s.strings) :
    tagOf s k = some .OBJ_STRING := by
  obtain ⟨next, length, chars, hash, bytes, h1, _, _⟩ := hwf k hk
  simp [tagOf, h1]

theorem tagOf_allocateObject (s : VM) (type : ObjType) (data : ObjData) :
    tagOf (allocateObject s type data).2 (allocateObject s type data).1 = some type := by
  simp [tagOf, allocateObject]

theorem copyString_tag (s : VM) (hwf : InternWF s) (chars : CharPtr) (n : Nat)
    (bytes : List Byte) (hload : load s chars = some bytes) (hlen : n ≤ bytes.length) :
    ∃ r s1, copyString s chars n = some (r, s1) ∧ tagOf s1 r = some .OBJ_STRING := by
  obtain ⟨r, s1, h, hwf1, _, hfind⟩ := copyString_spec s hwf chars n bytes hload hlen
  exact ⟨r, s1, h, tagOf_key s1 hwf1 r (tableFindString_some s1 _ _ _ _ r hfind).1⟩

theorem takeString_tag (s : VM) (hwf : InternWF s) (b n : Nat) (bytes : List Byte)
    (hload : load s (.heap b) = some bytes) (hlen : n ≤ bytes.length) :
    ∃ r s1, takeString s (.heap b) n = some (r, s1) ∧ tagOf s1 r = some .OBJ_STRING := by
  have hmem : s.mem[b]? = some (some (.chars bytes)) := by
    simp only [load] at hload
    split at hload
    · rename_i bs hb
      rw [hb]
      simpa using hload
    · exact absurd hload (by simp)
  cases hfind : tableFindString s s.strings bytes n (hashString bytes n) with
  | some r =>
    refine ⟨r, { s with mem := s.mem.set b none, frees := s.frees ++ [b] }, ?_, ?_⟩
    · simp [takeString, hload, hlen, hfind, freeArray, hmem]
    · exact tagOf_key s hwf r (tableFindString_some s _ _ _ _ r hfind).1
  | none =>
    refine ⟨s.heap.length, (allocateString s (.heap b) n (hashString bytes n)).2, ?_, ?_⟩
    · simp only [takeString, hload, hlen, if_true, hfind]
      rw [allocateString_eq]
    · rw [allocateString_eq]
      simp [tagOf]

/-- What `newBuiltinClass` returns: a new object tagged BuiltinClass, named by
the interned String for the text, with an empty method mapping. -/
theorem newBuiltinClass_result (s : VM) (hwf : InternWF s) (name : CharPtr)
    (nameBytes : List Byte) (n : Nat)
    (hload : load s name = some nameBytes) (hstrlen : strlen nameBytes = some n) :
    ∃ r s1 str rnext, newBuiltinClass s name = some (r, s1) ∧
      s1.heap[r]? = some ⟨.OBJ_BUILTIN_CLASS, rnext, .klass str initTable⟩ ∧
      copyString s1 name n = some (str, s1) ∧
      stringContent s1 str = cstring nameBytes := by
  have hn : n ≤ nameBytes.length := strlen_le _ _ hstrlen
  obtain ⟨str, sc, hcopy, hwfc, hg, hfind⟩ := copyString_spec s hwf name n nameBytes hload hn
  have heq := newBuiltinClass_eq s name nameBytes n str sc hload hstrlen hcopy
  have hg2 : Grows sc (allocateObject sc .OBJ_BUILTIN_CLASS (.klass str initTable)).2 :=
    Grows_allocateObject sc _ _
  have hwf2 : InternWF (allocateObject sc .OBJ_BUILTIN_CLASS (.klass str initTable)).2 :=
    InternWF_grows sc _ hwfc hg2 rfl
  have hfind2 : tableFindString (allocateObject sc .OBJ_BUILTIN_CLASS (.klass str initTable)).2
      (allocateObject sc .OBJ_BUILTIN_CLASS (.klass str initTable)).2.strings nameBytes n
      (hashString nameBytes n) = some str :=
    (tableFindString_grows sc _ hg2 hwfc nameBytes n _).trans hfind
  refine ⟨sc.heap.length, (allocateObject sc .OBJ_BUILTIN_CLASS (.klass str initTable)).2,
    str, sc.objects, heq, allocateObject_new sc _ _, ?_, ?_⟩
  · exact copyString_hit _ name n nameBytes str (hg2.2 _ _ (hg.2 _ _ hload)) hn hfind2
  · rw [cstring_eq_take nameBytes n hstrlen]
    exact (content_of_find _ hwf2 nameBytes n _ str hfind2).2

theorem defineBuiltinMethod_tag (s : VM) (hwf : InternWF s) (klass : Nat) (name : CharPtr)
    (function : Nat) (nameBytes : List Byte) (n : Nat) (type : ObjType) (next : Option Nat)
    (cname : Nat) (methods : Table)
    (hload : load s name = some nameBytes) (hstrlen : strlen nameBytes = some n)
    (hk : s.heap[klass]? = some ⟨type, next, .klass cname methods⟩) :
    ∃ r s1, defineBuiltinMethod s klass name function = some (r, s1) ∧
      tagOf s1 r = some .OBJ_NATIVE_METHOD := by
  have hn : n ≤ nameBytes.length := strlen_le _ _ hstrlen
  obtain ⟨str, sc, hcopy, _, hg, _⟩ := copyString_spec s hwf name n nameBytes hload hn
  have hkc := hg.1 _ _ hk
  have hklt : klass < sc.heap.length := by
    by_contra hc
    have : sc.heap[klass]? = none := List.getElem?_eq_none (by omega)
    simp [this] at hkc
  have hne : klass ≠ sc.heap.length := by omega
  refine ⟨_, _, defineBuiltinMethod_eq s klass name function nameBytes n str sc type next cname
    methods hload hstrlen hcopy hkc, ?_⟩
  simp [tagOf, List.getElem?_set_ne hne]

theorem newClosure_tag (s : VM) (function : Nat) (type : ObjType) (next : Option Nat)
    (arity upvalueCount : Nat) (name : Option Nat) (chunk : List Nat)
    (hf : s.heap[function]? = some ⟨type, next, .function arity upvalueCount name chunk⟩) :
    ∃ r s1, newClosure s function = some (r, s1) ∧ tagOf s1 r = some .OBJ_CLOSURE := by
  refine ⟨_, _, ?_, tagOf_allocateObject
    (allocate s (.upvalues (clearUpvalues (List.replicate upvalueCount (some 0))
      upvalueCount 0))).2 .OBJ_CLOSURE (.closure function s.mem.length upvalueCount)⟩
  simp only [newClosure, hf, allocate]

/-- C16. `newBuiltinClass(name)` returns a new object tagged BuiltinClass whose
name is the interned String for the text of `name` (the reference `copyString`
returns for it) and whose method mapping misses on every key. It is the only
construction entry point with that tag: `newClass` yields Class,
`newBoundMethod` BoundMethod, the method of `defineBuiltinMethod` NativeMethod,
`newClosure` Closure, `newFunction` Function, `newInstance` Instance,
`newNative` Native, `newUpvalue` Upvalue, `copyString` and `takeString` String. -/
theorem constructor_tags (s : VM) (hwf : InternWF s) :
    (∀ name nameBytes n, load s name = some nameBytes → strlen nameBytes = some n →
      ∃ r s1 str rnext methods, newBuiltinClass s name = some (r, s1) ∧
        s1.heap[r]? = some ⟨.OBJ_BUILTIN_CLASS, rnext, .klass str methods⟩ ∧
        copyString s1 name n = some (str, s1) ∧
        stringContent s1 str = cstring nameBytes ∧
        ∀ key, tableGet methods key = none) ∧
    (∀ name, tagOf (newClass s name).2 (newClass s name).1 = some .OBJ_CLASS) ∧
    (∀ receiver method, tagOf (newBoundMethod s receiver method).2
      (newBoundMethod s receiver method).1 = some .OBJ_BOUND_METHOD) ∧
    (∀ klass name function nameBytes n type next cname methods,
      load s name = some nameBytes → strlen nameBytes = some n →
      s.heap[klass]? = some ⟨type, next, .klass cname methods⟩ →
      ∃ r s1, defineBuiltinMethod s klass name function = some (r, s1) ∧
        tagOf s1 r = some .OBJ_NATIVE_METHOD) ∧
    (∀ function type next arity upvalueCount name chunk,
      s.heap[function]? = some ⟨type, next, .function arity upvalueCount name chunk⟩ →
      ∃ r s1, newClosure s function = some (r, s1) ∧ tagOf s1 r = some .OBJ_CLOSURE) ∧
    tagOf (newFunction s).2 (newFunction s).1 = some .OBJ_FUNCTION ∧
    (∀ klass, tagOf (newInstance s klass).2 (newInstance s klass).1 = some .OBJ_INSTANCE) ∧
    (∀ function, tagOf (newNative s function).2 (newNative s function).1
      = some .OBJ_NATIVE) ∧
    (∀ slot, tagOf (newUpvalue s slot).2 (newUpvalue s slot).1 = some .OBJ_UPVALUE) ∧
    (∀ chars n bytes, load s chars = some bytes → n ≤ bytes.length →
      ∃ r s1, copyString s chars n = some (r, s1) ∧ tagOf s1 r = some .OBJ_STRING) ∧
    (∀ b n bytes, load s (.heap b) = some bytes → n ≤ bytes.length →
      ∃ r s1, takeString s (.heap b) n = some (r, s1) ∧ tagOf s1 r = some .OBJ_STRING) := by
  refine ⟨?_, fun _ => tagOf_allocateObject s _ _, fun _ _ => tagOf_allocateObject s _ _,
    fun klass name function nameBytes n type next cname methods h1 h2 h3 =>
      defineBuiltinMethod_tag s hwf klass name function nameBytes n type next cname methods
        h1 h2 h3,
    fun function type next arity upvalueCount name chunk h =>
      newClosure_tag s function type next arity upvalueCount name chunk h,
    tagOf_allocateObject s _ _, fun _ => tagOf_allocateObject s _ _,
    fun _ => tagOf_allocateObject s _ _, fun _ => tagOf_allocateObject s _ _,
    fun chars n bytes h1 h2 => copyString_tag s hwf chars n bytes h1 h2,
    fun b n bytes h1 h2 => takeString_tag s hwf b n bytes h1 h2⟩
  intro name nameBytes n h1 h2
  obtain ⟨r, s1, str, rnext, h⟩ := newBuiltinClass_result s hwf name nameBytes n h1 h2
  exact ⟨r, s1, str, rnext, initTable, h.1, h.2.1, h.2.2.1, h.2.2.2, fun _ => rfl⟩

/-- C16 on `newBuiltinClass("Object")` in the initial state: the result is
tagged BuiltinClass and named by the String with content `Object`. -/
theorem constructor_tags_witness :
    ∃ r s1 str, newBuiltinClass initVM (.lit (bytesOf "Object" ++ [0])) = some (r, s1) ∧
      tagOf s1 r = some .OBJ_BUILTIN_CLASS ∧ className s1 r = some str ∧
      stringContent s1 str = some (bytesOf "Object") :=
  ((constructor_tags initVM (InternWF_of_check _ (by decide))).1
    (.lit (bytesOf "Object" ++ [0])) (bytesOf "Object" ++ [0]) 6 rfl (by decide)).elim
    fun r h1 => h1.elim fun s1 h2 => h2.elim fun str h3 => h3.elim fun rnext h4 =>
      h4.elim fun methods h =>
        ⟨r, s1, str, h.1, by simp only [tagOf, h.2.1, Option.map_some'],
          by simp only [className, h.2.1], h.2.2.2.1.trans (by decide)⟩

/-! ## The registry only grows at its head -/

theorem registryWalk_append_closed (heap extra : List Obj) (fuel : Nat) (head : Option Nat)
    (hhead : ∀ r : Nat, head = some r → r < heap.length)
    (hlinks : ∀ (r : Nat) (o : Obj) (r2 : Nat), heap[r]? = some o → o.next = some r2 →
      r2 < heap.length) :
    registryWalk (heap ++ extra) fuel head = registryWalk heap fuel head := by
  induction fuel generalizing head with
  | zero => rfl
  | succ f ih =>
    cases head with
    | none => rfl
    | some r =>
      have hr : r < heap.length := hhead r rfl
      have h1 : heap[r]? = some heap[r] := List.getElem?_eq_getElem hr
      have h2 : (heap ++ extra)[r]? = some heap[r] := by
        rw [List.getElem?_append_left hr]
        exact h1
      simp only [registryWalk, h1, h2]
      rw [ih heap[r].next (fun r2 h => hlinks r heap[r] r2 h1 h)]

theorem registryWalk_set_next (heap : List Obj) (k : Nat) (o updated : Obj)
    (hk : heap[k]? = some o) (hnext : updated.next = o.next)
    (fuel : Nat) (head : Option Nat) :
    registryWalk (heap.set k updated) fuel head = registryWalk heap fuel head := by
  induction fuel generalizing head with
  | zero => rfl
  | succ f ih =>
    cases head with
    | none => rfl
    | some r =>
      by_cases hrk : k = r
      · subst hrk
        have hlt : k < heap.length := by
          by_contra hc
          have : heap[k]? = none := List.getElem?_eq_none (by omega)
          simp [this] at hk
        simp only [registryWalk, getElem?_set_at heap k updated hlt, hk, hnext, ih]
      · simp only [registryWalk, List.getElem?_set_ne hrk]
        cases heap[r]? with
        | none => rfl
        | some o2 => simp only [ih]

theorem RegistryClosed_congr (s1 s2 : VM) (hh : s2.heap = s1.heap)
    (ho : s2.objects = s1.objects) (hc : RegistryClosed s1) : RegistryClosed s2 := by
  unfold RegistryClosed
  rw [hh, ho]
  exact hc

theorem RegistryClosed_allocateObject (s : VM) (type : ObjType) (data : ObjData)
    (hc : RegistryClosed s) : RegistryClosed (allocateObject s type data).2 := by
  constructor
  · intro r hr
    simp only [allocateObject, Option.some.injEq] at hr
    simp [allocateObject, ← hr]
  · intro r o r2 ho hn
    simp only [allocateObject, List.length_append, List.length_singleton] at ho ⊢
    by_cases hr : r < s.heap.length
    · rw [List.getElem?_append_left hr] at ho
      have := hc.2 r o r2 ho hn
      omega
    · by_cases hr2 : r = s.heap.length
      · subst hr2
        simp only [List.getElem?_concat_length, Option.some.injEq] at ho
        subst ho
        have := hc.1 r2 hn
        omega
      · have : (s.heap ++ [(⟨type, s.objects, data⟩ : Obj)])[r]? = none :=
          List.getElem?_eq_none (by simp; omega)
        rw [this] at ho
        exact absurd ho (by simp)

/-- With links that point at objects, `allocateObject` puts the new object in
front of the registry and leaves the rest in place. -/
theorem registry_allocateObject_eq (s : VM) (type : ObjType) (data : ObjData)
    (hc : RegistryClosed s) :
    registry (allocateObject s type data).2 = (allocateObject s type data).1 :: registry s := by
  have hnew : (s.heap ++ [(⟨type, s.objects, data⟩ : Obj)])[s.heap.length]?
      = some ⟨type, s.objects, data⟩ := by simp
  simp only [registry, allocateObject, List.length_append, List.length_singleton,
    registryWalk, hnew]
  rw [registryWalk_append_closed s.heap _ s.heap.length s.objects hc.1 hc.2]

theorem RegistryExtends_trans {s1 s2 s3 : VM} (h12 : RegistryExtends s1 s2)
    (h23 : RegistryExtends s2 s3) : RegistryExtends s1 s3 := by
  obtain ⟨⟨f1, hf1⟩, ht1, _⟩ := h12
  obtain ⟨⟨f2, hf2⟩, ht2, hc3⟩ := h23
  refine ⟨⟨f2 ++ f1, by rw [hf2, hf1, List.append_assoc]⟩, ?_, hc3⟩
  intro r o ho
  have h1 := ht1 r o ho
  simp only [tagOf, Option.map_eq_some'] at h1
  obtain ⟨o1, ho1, hty⟩ := h1
  rw [← hty]
  exact ht2 r o1 ho1

theorem RegistryExtends_same (s1 s2 : VM) (hh : s2.heap = s1.heap)
    (ho : s2.objects = s1.objects) (hc : RegistryClosed s1) : RegistryExtends s1 s2 := by
  refine ⟨⟨[], by rw [registry_congr s1 s2 hh ho]; rfl⟩, ?_, RegistryClosed_congr s1 s2 hh ho hc⟩
  intro r o h
  simp [tagOf, hh, h]

theorem RegistryExtends_allocateObject (s : VM) (type : ObjType) (data : ObjData)
    (hc : RegistryClosed s) : RegistryExtends s (allocateObject s type data).2 := by
  refine ⟨⟨[(allocateObject s type data).1], registry_allocateObject_eq s type data hc⟩, ?_,
    RegistryClosed_allocateObject s type data hc⟩
  intro r o h
  simp [tagOf, allocateObject_old s type data r o h]

/-- Rewriting the fields of one object, keeping its tag and registry link,
leaves the registry as it is. -/
theorem RegistryExtends_set (s : VM) (k : Nat) (o updated : Obj) (hc : RegistryClosed s)
    (hk : s.heap[k]? = some o) (hty : updated.type = o.type) (hnext : updated.next = o.next) :
    RegistryExtends s { s with heap := s.heap.set k updated } := by
  have hlt : k < s.heap.length := by
    by_contra hcon
    have : s.heap[k]? = none := List.getElem?_eq_none (by omega)
    simp [this] at hk
  refine ⟨⟨[], ?_⟩, ?_, ?_, ?_⟩
  · simp only [registry, List.length_set, List.nil_append]
    exact registryWalk_set_next s.heap k o updated hk hnext _ _
  · intro r o2 h2
    by_cases hrk : k = r
    · subst hrk
      rw [hk] at h2
      simp only [Option.some.injEq] at h2
      subst h2
      simp [tagOf, getElem?_set_at s.heap k updated hlt, hty]
    · simp [tagOf, List.getElem?_set_ne hrk, h2]
  · intro r hr
    simp only [List.length_set]
    exact hc.1 r hr
  · intro r o2 r2 h2 hn
    simp only [List.length_set]
    by_cases hrk : k = r
    · subst hrk
      rw [getElem?_set_at s.heap k updated hlt] at h2
      simp only [Option.some.injEq] at h2
      subst h2
      rw [hnext] at hn
      exact hc.2 k o r2 hk hn
    · rw [List.getElem?_set_ne hrk] at h2
      exact hc.2 r o2 r2 h2 hn

theorem RegistryClosed_of_check (s : VM) (h : registryClosedCheck s = true) :
    RegistryClosed s := by
  simp only [registryClosedCheck, Bool.and_eq_true, List.all_eq_true] at h
  obtain ⟨h1, h2⟩ := h
  constructor
  · intro r hr
    rw [hr] at h1
    simpa using h1
  · intro r o r2 ho hn
    have := h2 o (List.mem_iff_getElem?.mpr ⟨r, ho⟩)
    rw [hn] at this
    simpa using this

theorem RegistryExtends_allocateString (s : VM) (chars : CharPtr) (n hash : Nat)
    (hc : RegistryClosed s) : RegistryExtends s (allocateString s chars n hash).2 := by
  have h1 := RegistryExtends_allocateObject s .OBJ_STRING (.string n chars hash) hc
  have h2 : RegistryExtends (allocateObject s .OBJ_STRING (.string n chars hash)).2
      (allocateString s chars n hash).2 := by
    rw [allocateString_eq]
    exact RegistryExtends_same _ _ rfl rfl h1.2.2
  exact RegistryExtends_trans h1 h2

theorem copyString_extends (s : VM) (hc : RegistryClosed s) (chars : CharPtr) (n : Nat)
    (bytes : List Byte) (hload : load s chars = some bytes) (hlen : n ≤ bytes.length) :
    ∃ r s1, copyString s chars n = some (r, s1) ∧ RegistryExtends s s1 ∧ Grows s s1 := by
  cases hfind : tableFindString s s.strings bytes n (hashString bytes n) with
  | some r =>
    exact ⟨r, s, copyString_hit s chars n bytes r hload hlen hfind,
      RegistryExtends_same s s rfl rfl hc, Grows.refl s⟩
  | none =>
    have h1 := copyString_miss s chars n bytes hload hlen hfind
    have ha : RegistryExtends s (allocate s (.chars (bytes.take n ++ [0]))).2 :=
      RegistryExtends_same s _ rfl rfl hc
    exact ⟨_, _, h1, RegistryExtends_trans ha (RegistryExtends_allocateString _ _ _ _ ha.2.2),
      (Grows_allocate s _).trans (Grows_allocateString _ _ _ _)⟩

theorem takeString_extends (s : VM) (hc : RegistryClosed s) (b n : Nat) (bytes : List Byte)
    (hload : load s (.heap b) = some bytes) (hlen : n ≤ bytes.length) :
    ∃ r s1, takeString s (.heap b) n = some (r, s1) ∧ RegistryExtends s s1 := by
  have hmem : s.mem[b]? = some (some (.chars bytes)) := by
    simp only [load] at hload
    split at hload
    · rename_i bs hb
      rw [hb]
      simpa using hload
    · exact absurd hload (by simp)
  cases hfind : tableFindString s s.strings bytes n (hashString bytes n) with
  | some r =>
    refine ⟨r, { s with mem := s.mem.set b none, frees := s.frees ++ [b] }, ?_,
      RegistryExtends_same s _ rfl rfl hc⟩
    simp [takeString, hload, hlen, hfind, freeArray, hmem]
  | none =>
    refine ⟨s.heap.length, (allocateString s (.heap b) n (hashString bytes n)).2, ?_,
      RegistryExtends_allocateString s (.heap b) n (hashString bytes n) hc⟩
    simp only [takeString, hload, hlen, if_true, hfind]
    rw [allocateString_eq]

theorem newClosure_extends (s : VM) (hc : RegistryClosed s) (function : Nat) (type : ObjType)
    (next : Option Nat) (arity upvalueCount : Nat) (name : Option Nat) (chunk : List Nat)
    (hf : s.heap[function]? = some ⟨type, next, .function arity upvalueCount name chunk⟩) :
    ∃ r s1, newClosure s function = some (r, s1) ∧ RegistryExtends s s1 := by
  have ha : RegistryExtends s (allocate s (.upvalues (clearUpvalues
      (List.replicate upvalueCount (some 0)) upvalueCount 0))).2 :=
    RegistryExtends_same s _ rfl rfl hc
  refine ⟨s.heap.length, _, ?_, RegistryExtends_trans ha (RegistryExtends_allocateObject _
    .OBJ_CLOSURE (.closure function s.mem.length upvalueCount) ha.2.2)⟩
  simp only [newClosure, hf, allocate, allocateObject]

theorem newBuiltinClass_extends (s : VM) (hc : RegistryClosed s) (name : CharPtr)
    (nameBytes : List Byte) (n : Nat)
    (hload : load s name = some nameBytes) (hstrlen : strlen nameBytes = some n) :
    ∃ r s1, newBuiltinClass s name = some (r, s1) ∧ RegistryExtends s s1 := by
  obtain ⟨str, sc, hcopy, hext, _⟩ :=
    copyString_extends s hc name n nameBytes hload (strlen_le _ _ hstrlen)
  exact ⟨_, _, newBuiltinClass_eq s name nameBytes n str sc hload hstrlen hcopy,
    RegistryExtends_trans hext (RegistryExtends_allocateObject sc .OBJ_BUILTIN_CLASS
      (.klass str initTable) hext.2.2)⟩

theorem defineBuiltinMethod_extends (s : VM) (hc : RegistryClosed s) (klass : Nat)
    (name : CharPtr) (function : Nat) (nameBytes : List Byte) (n : Nat) (type : ObjType)
    (next : Option Nat) (cname : Nat) (methods : Table)
    (hload : load s name = some nameBytes) (hstrlen : strlen nameBytes = some n)
    (hk : s.heap[klass]? = some ⟨type, next, .klass cname methods⟩) :
    ∃ r s1, defineBuiltinMethod s klass name function = some (r, s1) ∧
      RegistryExtends s s1 := by
  obtain ⟨str, sc, hcopy, hext, hg⟩ :=
    copyString_extends s hc name n nameBytes hload (strlen_le _ _ hstrlen)
  have hkc := hg.1 _ _ hk
  have h1 := RegistryExtends_allocateObject sc .OBJ_NATIVE_METHOD (.nativeMethod function)
    hext.2.2
  have hk2 := allocateObject_old sc .OBJ_NATIVE_METHOD (.nativeMethod function) klass _ hkc
  have h2 := RegistryExtends_set (allocateObject sc .OBJ_NATIVE_METHOD
    (.nativeMethod function)).2 klass _
    (⟨type, next, .klass cname (tableSet methods str (.obj sc.heap.length)).2⟩ : Obj)
    h1.2.2 hk2 rfl rfl
  exact ⟨_, _, defineBuiltinMethod_eq s klass name function nameBytes n str sc type next cname
    methods hload hstrlen hcopy hkc, RegistryExtends_trans hext (RegistryExtends_trans h1 h2)⟩

/-- C18. Allocation only prepends to the registry: after `allocateObject` the
registry head is the new object, which carries exactly the requested tag and
whose `next` link is the previous head. When the links of the state point at
objects, the registry after the call is the new object followed by the
registry before it, and for every constructor the registry before the call is
the tail of the registry after it, every object keeping its type tag. (The
byte size handed to the allocation primitive is not part of the model.) -/
theorem allocateObject_prepends (s : VM) :
    (∀ type data,
      s.heap[(allocateObject s type data).1]? = none ∧
      (allocateObject s type data).2.objects = some (allocateObject s type data).1 ∧
      (allocateObject s type data).2.heap[(allocateObject s type data).1]?
        = some ⟨type, s.objects, data⟩) ∧
    (RegistryClosed s →
      (∀ type data, registry (allocateObject s type data).2
        = (allocateObject s type data).1 :: registry s) ∧
      (∀ receiver method, RegistryExtends s (newBoundMethod s receiver method).2) ∧
      (∀ name, RegistryExtends s (newClass s name).2) ∧
      (∀ name nameBytes n, load s name = some nameBytes → strlen nameBytes = some n →
        ∃ r s1, newBuiltinClass s name = some (r, s1) ∧ RegistryExtends s s1) ∧
      (∀ klass name function nameBytes n type next cname methods,
        load s name = some nameBytes → strlen nameBytes = some n →
        s.heap[klass]? = some ⟨type, next, .klass cname methods⟩ →
        ∃ r s1, defineBuiltinMethod s klass name function = some (r, s1) ∧
          RegistryExtends s s1) ∧
      (∀ function type next arity upvalueCount name chunk,
        s.heap[function]? = some ⟨type, next, .function arity upvalueCount name chunk⟩ →
        ∃ r s1, newClosure s function = some (r, s1) ∧ RegistryExtends s s1) ∧
      RegistryExtends s (newFunction s).2 ∧
      (∀ klass, RegistryExtends s (newInstance s klass).2) ∧
      (∀ function, RegistryExtends s (newNative s function).2) ∧
      (∀ slot, RegistryExtends s (newUpvalue s slot).2) ∧
      (∀ chars n bytes, load s chars = some bytes → n ≤ bytes.length →
        ∃ r s1, copyString s chars n = some (r, s1) ∧ RegistryExtends s s1) ∧
      (∀ b n bytes, load s (.heap b) = some bytes → n ≤ bytes.length →
        ∃ r s1, takeString s (.heap b) n = some (r, s1) ∧ RegistryExtends s s1)) := by
  refine ⟨fun type data => ⟨List.getElem?_eq_none (Nat.le_refl _), rfl,
    allocateObject_new s type data⟩, fun hc => ?_⟩
  refine ⟨fun type data => registry_allocateObject_eq s type data hc,
    fun _ _ => RegistryExtends_allocateObject s _ _ hc,
    fun _ => RegistryExtends_allocateObject s _ _ hc,
    fun name nameBytes n h1 h2 => newBuiltinClass_extends s hc name nameBytes n h1 h2,
    fun klass name function nameBytes n type next cname methods h1 h2 h3 =>
      defineBuiltinMethod_extends s hc klass name function nameBytes n type next cname
        methods h1 h2 h3,
    fun function type next arity upvalueCount name chunk h =>
      newClosure_extends s hc function type next arity upvalueCount name chunk h,
    RegistryExtends_allocateObject s _ _ hc,
    fun _ => RegistryExtends_allocateObject s _ _ hc,
    fun _ => RegistryExtends_allocateObject s _ _ hc,
    fun _ => RegistryExtends_allocateObject s _ _ hc,
    fun chars n bytes h1 h2 => ?_,
    fun b n bytes h1 h2 => takeString_extends s hc b n bytes h1 h2⟩
  obtain ⟨r, s1, h, hext, _⟩ := copyString_extends s hc chars n bytes h1 h2
  exact ⟨r, s1, h, hext⟩

/-- C18 on the state built by `createObjectType`, whose registry is 3, 2, 1, 0:
a new instance goes in front. -/
theorem allocateObject_prepends_witness :
    registry objectTypeVM = [3, 2, 1, 0] ∧
    registry (newInstance objectTypeVM 1).2 = [4, 3, 2, 1, 0] ∧
    RegistryExtends objectTypeVM (newInstance objectTypeVM 1).2 :=
  ⟨by decide,
   (((allocateObject_prepends objectTypeVM).2
      (RegistryClosed_of_check _ (by decide))).1 .OBJ_INSTANCE (.inst 1 initTable)).trans
      (by decide),
   ((allocateObject_prepends objectTypeVM).2
      (RegistryClosed_of_check _ (by decide))).2.2.2.2.2.2.2.1 1⟩

/-! ## Rooting on the value stack -/

theorem copyString_stack (s : VM) (chars : CharPtr) (n : Nat) (bytes : List Byte)
    (hload : load s chars = some bytes) (hlen : n ≤ bytes.length) :
    ∃ r s1, copyString s chars n = some (r, s1) ∧ s1.stack = s.stack ∧ Grows s s1 := by
  cases hfind : tableFindString s s.strings bytes n (hashString bytes n) with
  | some r =>
    exact ⟨r, s, copyString_hit s chars n bytes r hload hlen hfind, rfl, Grows.refl s⟩
  | none =>
    have hst : (allocateString (allocate s (.chars (bytes.take n ++ [0]))).2
        (.heap s.mem.length) n (hashString bytes n)).2.stack = s.stack := by
      rw [allocateString_eq]
      rfl
    exact ⟨(allocateString (allocate s (.chars (bytes.take n ++ [0]))).2
        (.heap s.mem.length) n (hashString bytes n)).1,
      (allocateString (allocate s (.chars (bytes.take n ++ [0]))).2
        (.heap s.mem.length) n (hashString bytes n)).2,
      copyString_miss s chars n bytes hload hlen hfind, hst,
      (Grows_allocate s _).trans (Grows_allocateString _ _ _ _)⟩

theorem takeString_stack (s : VM) (b n : Nat) (bytes : List Byte)
    (hload : load s (.heap b) = some bytes) (hlen : n ≤ bytes.length) :
    ∃ r s1, takeString s (.heap b) n = some (r, s1) ∧ s1.stack = s.stack := by
  have hmem : s.mem[b]? = some (some (.chars bytes)) := by
    simp only [load] at hload
    split at hload
    · rename_i bs hb
      rw [hb]
      simpa using hload
    · exact absurd hload (by simp)
  cases hfind : tableFindString s s.strings bytes n (hashString bytes n) with
  | some r =>
    refine ⟨r, { s with mem := s.mem.set b none, frees := s.frees ++ [b] }, ?_, rfl⟩
    simp [takeString, hload, hlen, hfind, freeArray, hmem]
  | none =>
    refine ⟨s.heap.length, (allocateString s (.heap b) n (hashString bytes n)).2, ?_, ?_⟩
    · simp only [takeString, hload, hlen, if_true, hfind]
      rw [allocateString_eq]
    · rw [allocateString_eq]

/-- C19. The pushes that root objects during construction are undone by as many
pops: `allocateString` (one push, one pop), hence `copyString` and
`takeString`, and `newBuiltinClass` and `defineBuiltinMethod` (two pushes, two
pops each) leave the value stack exactly as they found it, whatever it held. -/
theorem rooting_balanced (s : VM) :
    (∀ chars n hash, (allocateString s chars n hash).2.stack = s.stack) ∧
    (∀ chars n bytes, load s chars = some bytes → n ≤ bytes.length →
      ∃ r s1, copyString s chars n = some (r, s1) ∧ s1.stack = s.stack) ∧
    (∀ b n bytes, load s (.heap b) = some bytes → n ≤ bytes.length →
      ∃ r s1, takeString s (.heap b) n = some (r, s1) ∧ s1.stack = s.stack) ∧
    (∀ name nameBytes n, load s name = some nameBytes → strlen nameBytes = some n →
      ∃ r s1, newBuiltinClass s name = some (r, s1) ∧ s1.stack = s.stack) ∧
    (∀ klass name function nameBytes n type next cname methods,
      load s name = some nameBytes → strlen nameBytes = some n →
      s.heap[klass]? = some ⟨type, next, .klass cname methods⟩ →
      ∃ r s1, defineBuiltinMethod s klass name function = some (r, s1) ∧
        s1.stack = s.stack) := by
  refine ⟨fun chars n hash => by rw [allocateString_eq], ?_, ?_, ?_, ?_⟩
  · intro chars n bytes h1 h2
    obtain ⟨r, s1, h, hs, _⟩ := copyString_stack s chars n bytes h1 h2
    exact ⟨r, s1, h, hs⟩
  · intro b n bytes h1 h2
    exact takeString_stack s b n bytes h1 h2
  · intro name nameBytes n h1 h2
    obtain ⟨str, sc, hcopy, hs, _⟩ :=
      copyString_stack s name n nameBytes h1 (strlen_le _ _ h2)
    exact ⟨_, _, newBuiltinClass_eq s name nameBytes n str sc h1 h2 hcopy, hs⟩
  · intro klass name function nameBytes n type next cname methods h1 h2 h3
    obtain ⟨str, sc, hcopy, hs, hg⟩ :=
      copyString_stack s name n nameBytes h1 (strlen_le _ _ h2)
    exact ⟨_, _, defineBuiltinMethod_eq s klass name function nameBytes n str sc type next
      cname methods h1 h2 hcopy (hg.1 _ _ h3), hs⟩

/-- C19 on a stack holding two values: `newBuiltinClass("Object")` returns with
the same two values on it. -/
theorem rooting_balanced_witness :
    ∃ r s1, newBuiltinClass { initVM with stack := [.number 1, .bool true] }
        (.lit (bytesOf "Object" ++ [0])) = some (r, s1) ∧
      s1.stack = [.number 1, .bool true] :=
  (rooting_balanced { initVM with stack := [.number 1, .bool true] }).2.2.2.1
    (.lit (bytesOf "Object" ++ [0])) (bytesOf "Object" ++ [0]) 6 rfl (by decide)

/-! ## Cached fields of strings -/

/-- C20. Cached fields of strings: a String that `copyString` creates (the
lookup having missed) has `length` equal to the requested length, content equal
to the first `length` bytes of the input, `hash` equal to `hashString` of that
content, and its owned storage holds a zero byte at index `length`; a String
that `takeString` creates has the same three properties over the adopted
storage. Hence after every sequence of calls from the initial state each key
of the intern table has `hash = hashString(chars, length)`. -/
theorem string_cached_fields (s : VM) :
    (∀ chars n bytes, load s chars = some bytes → n ≤ bytes.length →
      tableFindString s s.strings bytes n (hashString bytes n) = none →
      ∃ r s1 stor storage, copyString s chars n = some (r, s1) ∧
        s.heap[r]? = none ∧
        s1.heap[r]? = some ⟨.OBJ_STRING, s.objects,
          .string n (.heap stor) (hashString bytes n)⟩ ∧
        load s1 (.heap stor) = some storage ∧
        storage.take n = bytes.take n ∧
        storage[n]? = some 0 ∧
        hashString storage n = hashString bytes n ∧
        stringContent s1 r = some (bytes.take n)) ∧
    (∀ b n bytes, load s (.heap b) = some bytes → n ≤ bytes.length →
      tableFindString s s.strings bytes n (hashString bytes n) = none →
      ∃ r s1, takeString s (.heap b) n = some (r, s1) ∧
        s.heap[r]? = none ∧
        s1.heap[r]? = some ⟨.OBJ_STRING, s.objects,
          .string n (.heap b) (hashString bytes n)⟩ ∧
        load s1 (.heap b) = some bytes ∧
        stringContent s1 r = some (bytes.take n)) ∧
    (∀ calls : List InternCall, ∃ s1, internRun initVM calls = some s1 ∧
      ∀ k ∈ tableKeys s1.strings, ∃ next length chars hash storage,
        s1.heap[k]? = some ⟨.OBJ_STRING, next, .string length chars hash⟩ ∧
        load s1 chars = some storage ∧ length ≤ storage.length ∧
        hash = hashString storage length) := by
  refine ⟨?_, ?_, ?_⟩
  · intro chars n bytes hload hlen hfind
    have h1 := copyString_miss s chars n bytes hload hlen hfind
    have hobj : (allocateString (allocate s (.chars (bytes.take n ++ [0]))).2
        (.heap s.mem.length) n (hashString bytes n)).2.heap[s.heap.length]?
        = some ⟨.OBJ_STRING, s.objects, .string n (.heap s.mem.length)
          (hashString bytes n)⟩ := by
      rw [allocateString_eq]
      simp [allocate]
    have hl : load (allocateString (allocate s (.chars (bytes.take n ++ [0]))).2
        (.heap s.mem.length) n (hashString bytes n)).2 (.heap s.mem.length)
        = some (bytes.take n ++ [0]) :=
      (Grows_allocateString _ _ _ _).2 _ _ (load_allocate_new s _)
    have htake : (bytes.take n ++ [0]).take n = bytes.take n := by
      simp [List.take_append_of_le_length, hlen]
    have hlen2 : n ≤ (bytes.take n ++ [0]).length := by simp; omega
    refine ⟨s.heap.length, _, s.mem.length, bytes.take n ++ [0], ?_,
      List.getElem?_eq_none (Nat.le_refl _), hobj, hl, htake, ?_,
      hashString_take _ _ n htake, ?_⟩
    · rw [h1, allocateString_eq]
      rfl
    · have hl2 : (bytes.take n).length = n := by simp [hlen]
      rw [List.getElem?_append_right (by omega)]
      simp [hl2]
    · rw [stringContent_of _ _ _ _ _ _ _ hobj hl hlen2, htake]
  · intro b n bytes hload hlen hfind
    have hobj : (allocateString s (.heap b) n (hashString bytes n)).2.heap[s.heap.length]?
        = some ⟨.OBJ_STRING, s.objects, .string n (.heap b) (hashString bytes n)⟩ := by
      rw [allocateString_eq]
      simp
    have hl := (Grows_allocateString s (.heap b) n (hashString bytes n)).2 _ _ hload
    refine ⟨s.heap.length, (allocateString s (.heap b) n (hashString bytes n)).2, ?_,
      List.getElem?_eq_none (Nat.le_refl _), hobj, hl,
      stringContent_of _ _ _ _ _ _ _ hobj hl hlen⟩
    simp only [takeString, hload, hlen, if_true, hfind]
    rw [allocateString_eq]
  · intro calls
    obtain ⟨s1, hrun, hinv⟩ := internRun_spec calls initVM InternInv_init
    refine ⟨s1, hrun, fun k hk => ?_⟩
    obtain ⟨next, length, chars, storage, h1, h2, h3⟩ := hinv.keysOk k hk
    exact ⟨next, length, chars, _, storage, h1, h2, h3, rfl⟩

/-- C20 on `copyString("foo", 3)` in the initial state: the new String has
length 3, the hash of `foo`, and storage `foo` followed by a zero byte. -/
theorem string_cached_fields_witness :
    ∃ r s1 stor storage, copyString initVM (.lit (bytesOf "foo")) 3 = some (r, s1) ∧
      s1.heap[r]? = some ⟨.OBJ_STRING, none, .string 3 (.heap stor) 2851307223⟩ ∧
      load s1 (.heap stor) = some storage ∧ storage[3]? = some 0 ∧
      stringContent s1 r = some (bytesOf "foo") :=
  ((string_cached_fields initVM).1 (.lit (bytesOf "foo")) 3 (bytesOf "foo") rfl (by decide)
    (by decide)).elim fun r h1 => h1.elim fun s1 h2 => h2.elim fun stor h3 =>
      h3.elim fun storage h =>
        ⟨r, s1, stor, storage, h.1, h.2.2.1, h.2.2.2.1, h.2.2.2.2.2.1, h.2.2.2.2.2.2.2⟩

end Clox
